import Mathlib

/-!
Formal model of `src/mcp-jira/jira.py`.

The repository is a single facade class `JiraFetcher` over the external
`atlassian.Jira` client.  This file embeds, over `List Char` and a small JSON
value type, the text cleanup `_clean_text`, the fetch operations `get_issue`,
`search_issues`, `get_project_issues` and `get_all_projects`, and the
constructor, and proves the behaviour the specification claims for them.

External collaborators (the `re` module, `str` methods, `datetime`, the HTTP
client) are modelled explicitly: regex substitution becomes a left-to-right
scanner over characters, the client becomes a record of response functions,
and raised exceptions become `Except.error` carrying `str(e)`.
-/

/-! ## Characters, whitespace, literal patterns -/

/-- The whitespace recognised by Python's `str.strip()`: every character for
which `str.isspace()` holds (`Py_UNICODE_ISSPACE`), i.e. U+0009–U+000D,
U+001C–U+001F, the space, NEL U+0085, NBSP U+00A0, U+1680, U+2000–U+200A,
the line and paragraph separators U+2028/U+2029, U+202F, U+205F and the
ideographic space U+3000. -/
def pyWs (c : Char) : Bool :=
  let n := c.toNat
  (0x09 ≤ n && n ≤ 0x0D) || n == 0x20 || (0x1C ≤ n && n ≤ 0x1F) ||
    n == 0x85 || n == 0xA0 || n == 0x1680 || (0x2000 ≤ n && n ≤ 0x200A) ||
    n == 0x2028 || n == 0x2029 || n == 0x202F || n == 0x205F || n == 0x3000

/-- The literal prefix of the regex `\{color:[^}]+\}` (an opening color tag). -/
def colorOpenPat : List Char := ['{', 'c', 'o', 'l', 'o', 'r', ':']

/-- The literal string passed to `text.replace` on source line 42 (a closing color tag). -/
def colorClosePat : List Char := ['{', 'c', 'o', 'l', 'o', 'r', '}']

/-! ## A `re.sub` engine

Each of the substitutions in `_clean_text` is an application of Python's
`re.sub` (or `str.replace`, which has the same scan-and-replace shape): scan
the text left to right, and at each position try to match the pattern; on a
match, emit the replacement and continue immediately after the match; on a
failure, keep the character and move one position right.  A *matcher* decides
whether the pattern matches at the head of the text and, if so, returns the
replacement text and the total number of characters the match consumes
(always at least one for the patterns in this file). -/

abbrev Matcher := List Char → Option (List Char × Nat)

/-- Matcher for `\{color:[^}]+\}` (source line 41): the literal `{color:`,
then a maximal nonempty run of characters other than `}`, then `}`. -/
def colorOpenM : Matcher := fun s =>
  if s.take 7 = colorOpenPat then
    let run := (s.drop 7).takeWhile (fun c => c ≠ '}')
    if run ≠ [] ∧ ((s.drop 7).drop run.length).head? = some '}' then
      some ([], run.length + 8)
    else none
  else none

/-- Matcher for one occurrence of a literal substring, replaced by `rep`
(Python `str.replace`, source lines 42 and 74). -/
def litM (pat rep : List Char) : Matcher := fun s =>
  if pat ≠ [] ∧ s.take pat.length = pat then some (rep, pat.length) else none

/-- Index of the first occurrence of two adjacent `}` characters. -/
def findDD : List Char → Option Nat
  | [] => none
  | c :: rest => if c = '}' ∧ rest.head? = some '}' then some 0 else (findDD rest).map (· + 1)

/-- Matcher for `\{\{.*?\}\}` with `re.DOTALL` (source line 44): `{{`, then the
shortest run of arbitrary characters up to the first `}}`. -/
def codeM : Matcher := fun s =>
  if s.take 2 = ['{', '{'] then (findDD (s.drop 2)).map (fun j => ([], j + 4))
  else none

/-- Scan for the first character satisfying `good`, failing if a character
satisfying `bad` (or the end of the text) is reached first. -/
def scanFor (good bad : Char → Bool) : List Char → Option Nat
  | [] => none
  | c :: rest =>
    if good c then some 0
    else if bad c then none
    else (scanFor good bad rest).map (· + 1)

/-- Matcher for `!\[?[^\]]*?!` (source line 45, an inline image): with full
backtracking this matches exactly an `!`, then the characters up to the next
`!` provided no `]` intervenes (an optional leading `[` is absorbed either by
`\[?` or by `[^\]]*?`, with the same match end either way). -/
def imageM : Matcher := fun s =>
  match s with
  | c :: rest =>
    if c = '!' then (scanFor (fun x => x = '!') (fun x => x = ']') rest).map (fun j => ([], j + 2))
    else none
  | [] => none

/-- Index of the first `]`. -/
def findClose (l : List Char) : Option Nat := scanFor (fun c => c = ']') (fun _ => false) l

/-- After a candidate `|`, the regex `[^\]]+\]` needs at least one non-`]`
character and then the first `]`. -/
def linkAfterPipe (l : List Char) : Option Nat :=
  match findClose l with
  | some q => if 1 ≤ q then some q else none
  | none => none

/-- Search, within the text following a `[`, for the first `|` (reachable
without crossing a newline, since `.` does not match `\n`) whose continuation
matches `[^\]]+\]`; later pipes are reconsidered when an earlier one fails,
exactly as the backtracking of `\[(.*?)\|[^\]]+\]` does.  Returns the length
of the display text and of the target text. -/
def linkScan : List Char → Option (Nat × Nat)
  | [] => none
  | c :: rest =>
    if c = '\n' then none
    else if c = '|' then
      match linkAfterPipe rest with
      | some q => some (0, q)
      | none => (linkScan rest).map (fun pq => (pq.1 + 1, pq.2))
    else (linkScan rest).map (fun pq => (pq.1 + 1, pq.2))

/-- Matcher for `\[(.*?)\|[^\]]+\]` replaced by `\1` (source line 46): a Jira
link `[display|target]`, replaced by its display text. -/
def linkM : Matcher := fun s =>
  match s with
  | c :: rest =>
    if c = '[' then (linkScan rest).map (fun pq => (rest.take pq.1, pq.1 + pq.2 + 3))
    else none
  | [] => none

/-- Matcher for `\n+` replaced by `\n` (source line 48): a maximal run of
newlines collapses to a single newline. -/
def newlineM : Matcher := fun s =>
  match s with
  | c :: rest =>
    if c = '\n' then some (['\n'], (rest.takeWhile (fun x => x = '\n')).length + 1)
    else none
  | [] => none

/-- Fuel-indexed `re.sub` engine.  The fuel only enables structural recursion:
`subAll` supplies one unit per character, which is always enough because every
matcher above consumes at least one character, so the fuel-exhausted branch is
never reached. -/
def subAllF (m : Matcher) : Nat → List Char → List Char
  | 0, s => s
  | _ + 1, [] => []
  | fuel + 1, c :: rest =>
    match m (c :: rest) with
    | some (rep, n) => rep ++ subAllF m fuel (rest.drop (n - 1))
    | none => c :: subAllF m fuel rest

/-- Python `re.sub pattern replacement text`: replace every match, scanning
left to right, never rescanning emitted replacement text. -/
def subAll (m : Matcher) (s : List Char) : List Char := subAllF m s.length s

/-- The position of the leftmost match of `m`, together with its replacement
and length. -/
def firstMatchAt (m : Matcher) : List Char → Option (Nat × List Char × Nat)
  | [] => none
  | c :: rest =>
    match m (c :: rest) with
    | some (rep, n) => some (0, rep, n)
    | none => (firstMatchAt m rest).map (fun x => (x.1 + 1, x.2.1, x.2.2))

/-- Fuel-indexed form of the specification-side substitution. -/
def subSpecF (m : Matcher) : Nat → List Char → List Char
  | 0, s => s
  | fuel + 1, s =>
    match firstMatchAt m s with
    | none => s
    | some (i, rep, n) => s.take i ++ rep ++ subSpecF m fuel (s.drop (i + n))

/-- Substitution as the specification words it: repeatedly find the leftmost
match, replace it, and continue with the text after it. -/
def subSpec (m : Matcher) (s : List Char) : List Char := subSpecF m s.length s

/-- Python `str.strip()`: drop leading and trailing whitespace. -/
def stripBoth (s : List Char) : List Char :=
  ((s.dropWhile pyWs).reverse.dropWhile pyWs).reverse

/-- No two adjacent `}` characters (used to state that `{{...}}` matching is
non-greedy: the body extends to the *first* `}}`). -/
def noDD : List Char → Bool
  | c :: d :: rest => !(c = '}' && d = '}') && noDD (d :: rest)
  | _ => true

/-- No two adjacent newlines (the invariant the newline-collapsing pass
establishes). -/
def noAdjNL : List Char → Bool
  | c :: d :: rest => !(c = '\n' && d = '\n') && noAdjNL (d :: rest)
  | _ => true

/-- `JiraFetcher._clean_text` (source lines 36-48): falsy input yields `""`;
otherwise remove opening color tags, remove closing color tags, remove
`{{...}}` code blocks, remove `!...!` images, replace `[display|target]`
links by their display text, collapse newline runs, and strip the ends. -/
def _clean_text (text : String) : String :=
  if text = "" then ""
  else
    let t1 := subAll colorOpenM text.data
    let t2 := subAll (litM colorClosePat []) t1
    let t3 := subAll codeM t2
    let t4 := subAll imageM t3
    let t5 := subAll linkM t4
    String.mk (stripBoth (subAll newlineM t5))

/-- The cleanup pipeline exactly as the specification describes it, with each
substitution rendered as "repeatedly replace the leftmost match" (`subSpec`)
rather than as the incremental scanner the implementation model uses. -/
def clean_text_spec (text : String) : String :=
  if text = "" then ""
  else
    let t1 := subSpec colorOpenM text.data
    let t2 := subSpec (litM colorClosePat []) t1
    let t3 := subSpec codeM t2
    let t4 := subSpec imageM t3
    let t5 := subSpec linkM t4
    String.mk (stripBoth (subSpec newlineM t5))


/-! ## Timestamps

`get_issue` renders creation timestamps with
`datetime.fromisoformat(created.replace("Z", "+00:00")).strftime("%Y-%m-%d")`
(source lines 74-75 and 80-81). -/

def isDigitC (c : Char) : Bool := '0' ≤ c && c ≤ '9'

def digitVal (c : Char) : Nat := c.toNat - '0'.toNat

def twoDigits (a b : Char) : Nat := 10 * digitVal a + digitVal b

def isLeap (y : Nat) : Bool := (y % 4 == 0 && y % 100 != 0) || y % 400 == 0

def daysInMonth (y m : Nat) : Nat :=
  if m == 2 then (if isLeap y then 29 else 28)
  else if m == 4 || m == 6 || m == 9 || m == 11 then 30
  else 31

/-- A UTC-offset suffix: empty, `Z`, or `±HH[:MM]` / `±HHMM`.  CPython builds
a `timezone` from the parsed offset, which must be strictly between
`-timedelta(hours=24)` and `timedelta(hours=24)`; the minute field is not
range-checked on its own, only the total magnitude. -/
def validOffset : List Char → Bool
  | [] => true
  | ['Z'] => true
  | c :: h1 :: h2 :: rest =>
    (c == '+' || c == '-') && isDigitC h1 && isDigitC h2 &&
    (match rest with
     | [] => decide (60 * twoDigits h1 h2 < 1440)
     | [':', m1, m2] => isDigitC m1 && isDigitC m2 && decide (60 * twoDigits h1 h2 + twoDigits m1 m2 < 1440)
     | [m1, m2] => isDigitC m1 && isDigitC m2 && decide (60 * twoDigits h1 h2 + twoDigits m1 m2 < 1440)
     | _ => false)
  | _ => false

/-- An optional fractional-seconds part followed by an offset. -/
def validFracTail : List Char → Bool
  | [] => true
  | c :: rest =>
    if c == '.' || c == ',' then
      let digs := rest.takeWhile isDigitC
      decide (1 ≤ digs.length) && decide (digs.length ≤ 6) && validOffset (rest.drop digs.length)
    else validOffset (c :: rest)

def validSecTail : List Char → Bool
  | ':' :: s1 :: s2 :: rest => isDigitC s1 && isDigitC s2 && decide (twoDigits s1 s2 < 60) && validFracTail rest
  | l => validOffset l

def validMinTail : List Char → Bool
  | ':' :: m1 :: m2 :: rest => isDigitC m1 && isDigitC m2 && decide (twoDigits m1 m2 < 60) && validSecTail rest
  | l => validOffset l

/-- What may follow the calendar date: nothing, or a `T`/space separator and a time. -/
def validTimeTail : List Char → Bool
  | [] => true
  | sep :: h1 :: h2 :: rest =>
    (sep == 'T' || sep == ' ') && isDigitC h1 && isDigitC h2 && decide (twoDigits h1 h2 < 24) && validMinTail rest
  | _ => false

/-- Models `datetime.fromisoformat(s).strftime("%Y-%m-%d")` for the CPython
3.11+ `fromisoformat` grammar restricted to the ISO-8601 forms relevant here:
a four-digit-year calendar date, optionally followed by a separator, a time
`HH[:MM[:SS[.ffffff]]]` and a UTC offset.  The `datetime` constructor further
requires `MINYEAR = 1 ≤ year` (year `0000` raises `year 0 is out of range`)
and an offset magnitude strictly below 24 hours.  On success `strftime("%Y-%m-%d")`
returns exactly the ten-character date prefix; on failure Python raises
`ValueError`, modelled as `Except.error` (message simplified). -/
def fromisoformat_ymd (s : String) : Except String String :=
  match s.data with
  | y1 :: y2 :: y3 :: y4 :: '-' :: m1 :: m2 :: '-' :: d1 :: d2 :: rest =>
    if isDigitC y1 && isDigitC y2 && isDigitC y3 && isDigitC y4
       && isDigitC m1 && isDigitC m2 && isDigitC d1 && isDigitC d2
       && decide (1 ≤ 1000 * digitVal y1 + 100 * digitVal y2 + 10 * digitVal y3 + digitVal y4)
       && decide (1 ≤ twoDigits m1 m2) && decide (twoDigits m1 m2 ≤ 12)
       && decide (1 ≤ twoDigits d1 d2)
       && decide (twoDigits d1 d2 ≤ daysInMonth
            (1000 * digitVal y1 + 100 * digitVal y2 + 10 * digitVal y3 + digitVal y4) (twoDigits m1 m2))
       && validTimeTail rest
    then .ok (String.mk [y1, y2, y3, y4, '-', m1, m2, '-', d1, d2])
    else .error ("Invalid isoformat string: " ++ s)
  | _ => .error ("Invalid isoformat string: " ++ s)

/-- Python `str.replace(pat, rep)`: replace every non-overlapping occurrence,
left to right. -/
def strReplace (s pat rep : String) : String := String.mk (subAll (litM pat.data rep.data) s.data)

/-- The default timestamp used when a `created` field is absent
(source lines 74 and 80). -/
def epochDefault : String := "1970-01-01T00:00:00.000+0000"


/-! ## JSON values and the Python operations on them -/

/-- Decoded JSON data as the client library hands it back. -/
inductive JVal where
  | null
  | bool (b : Bool)
  | num (n : Int)
  | str (s : String)
  | list (xs : List JVal)
  | dict (kvs : List (String × JVal))

/-- Python truthiness of a value. -/
def jTruthy : JVal → Bool
  | .null => false
  | .bool b => b
  | .num n => n != 0
  | .str s => s != ""
  | .list xs => !xs.isEmpty
  | .dict kvs => !kvs.isEmpty

def isDictB : JVal → Bool
  | .dict _ => true
  | _ => false

def isStrB : JVal → Bool
  | .str _ => true
  | _ => false

/-- Dictionary lookup.  Python dicts have unique keys; in this association-list
model the first occurrence of a key is its binding. -/
def jLookup : List (String × JVal) → String → Option JVal
  | [], _ => none
  | (k, v) :: rest, key => if k = key then some v else jLookup rest key

/-- `obj.get(key, default)` on a value known (or defaulted) to be a dict. -/
def jGetD (v : JVal) (key : String) (d : JVal) : JVal :=
  match v with
  | .dict kvs => (jLookup kvs key).getD d
  | _ => d

/-- Python `obj.get(key, default)`: raises `AttributeError` unless `obj` is a
dict (exception message simplified). -/
def pyGet (v : JVal) (key : String) (d : JVal) : Except String JVal :=
  match v with
  | .dict kvs => .ok ((jLookup kvs key).getD d)
  | _ => .error "AttributeError: object has no attribute get"

/-- Python iteration `for x in obj`: lists yield their elements, strings their
characters, dicts their keys; other values raise `TypeError`. -/
def pyIter : JVal → Except String (List JVal)
  | .list xs => .ok xs
  | .str s => .ok (s.data.map (fun c => .str (String.mk [c])))
  | .dict kvs => .ok (kvs.map (fun kv => .str kv.1))
  | _ => .error "TypeError: object is not iterable"

/-- Calling `.replace` on a value: only strings have it. -/
def asStr : JVal → Except String String
  | .str s => .ok s
  | _ => .error "AttributeError: object has no attribute replace"

/-- `key in obj` for a dict: key membership. -/
def hasKeyB (v : JVal) (key : String) : Bool :=
  match v with
  | .dict kvs => (jLookup kvs key).isSome
  | _ => false

/-- Lookup of a key in a dict-shaped value (`none` on other shapes). -/
def dictLookup : JVal → String → Option JVal
  | .dict kvs, key => jLookup kvs key
  | _, _ => none

def startsWithB : List Char → List Char → Bool
  | [], _ => true
  | _ :: _, [] => false
  | p :: ps, c :: cs => p == c && startsWithB ps cs

def containsSubB (s pat : List Char) : Bool :=
  match s with
  | [] => startsWithB pat []
  | _ :: rest => startsWithB pat s || containsSubB rest pat

/-- Python `key in obj` for the container kinds a decoded response can be:
dict keys, string substring, list membership (a string key only equals string
elements); other values raise `TypeError`. -/
def pyContains (v : JVal) (key : String) : Except String Bool :=
  match v with
  | .dict kvs => .ok (jLookup kvs key).isSome
  | .str s => .ok (containsSubB s.data key.data)
  | .list xs => .ok (xs.any (fun x => match x with | .str t => t == key | _ => false))
  | _ => .error "TypeError: argument is not iterable"

/-- `_clean_text` applied to an arbitrary field value: Python's `if not text`
returns `""` for any falsy value, and `re.sub` raises `TypeError` on a truthy
non-string. -/
def clean_text_j (v : JVal) : Except String String :=
  if jTruthy v = false then .ok ""
  else match v with
    | .str s => .ok (_clean_text s)
    | _ => .error "TypeError: expected string or bytes-like object"

/-- Python `str()` inside the f-string on source line 95, for the value kinds
that occur as issue keys; composite values get a simplified rendering. -/
def pyStr : JVal → String
  | .str s => s
  | .num n => toString n
  | .bool true => "True"
  | .bool false => "False"
  | .null => "None"
  | .list _ => "<list>"
  | .dict _ => "<dict>"

/-- Python `"...".rstrip("/")`: drop trailing slashes. -/
def rstripSlash (s : String) : String :=
  String.mk ((s.data.reverse.dropWhile (fun c => c = '/')).reverse)

/-! ## The client and the fetcher -/

/-- The external `atlassian.Jira` client, modelled by the responses it gives:
each method either returns a decoded JSON value or raises an exception `e`,
modelled as `Except.error` carrying `str(e)`. -/
structure JiraClient where
  issue : JVal → Option String → Except String JVal
  jql : String → String → Int → Int → Option String → Except String JVal
  projects : Except String JVal

structure JiraFetcher where
  server : String
  email : String
  api_token : String
  jira : JiraClient

/-- Processing of one comment (source lines 72-77). -/
def processComment (comment : JVal) : Except String JVal := do
  let bodyV ← pyGet comment "body" (.str "")
  let processed_comment ← clean_text_j bodyV
  let createdV ← pyGet comment "created" (.str epochDefault)
  let createdS ← asStr createdV
  let created_date ← fromisoformat_ymd (strReplace createdS "Z" "+00:00")
  let authorV ← pyGet comment "author" (.dict [])
  let author ← pyGet authorV "displayName" (.str "Unknown")
  pure (JVal.dict [("body", .str processed_comment), ("created", .str created_date), ("author", author)])

/-- Comment collection (source lines 70-77): only a dict-valued `comment`
field is examined; otherwise the comments list stays empty. -/
def processComments (commentField : JVal) : Except String (List JVal) :=
  if isDictB commentField then do
    let commentsV ← pyGet commentField "comments" (.list [])
    let items ← pyIter commentsV
    items.mapM processComment
  else pure []

/-- The body of `get_issue`'s `try` block (source lines 52-96), given the
client's response for the issue. -/
def get_issue_try (resp : Except String JVal) (server : String) (issue_key : JVal) :
    Except String JVal := do
  let issue ← resp
  if jTruthy issue = false || isDictB issue = false then
    return .dict [("key", issue_key), ("error", .str "Issue not found or missing data")]
  let fields ← pyGet issue "fields" (.dict [])
  if isDictB fields = false then
    return .dict [("key", issue_key), ("error", .str "Issue missing fields")]
  let descriptionV ← pyGet fields "description" (.str "")
  let description ← clean_text_j descriptionV
  let commentV ← pyGet fields "comment" .null
  let comments ← processComments commentV
  let createdV ← pyGet fields "created" (.str epochDefault)
  let createdS ← asStr createdV
  let formatted_created ← fromisoformat_ymd (strReplace createdS "Z" "+00:00")
  let title ← pyGet fields "summary" (.str "No Summary")
  let issuetypeV ← pyGet fields "issuetype" (.dict [])
  let itype ← pyGet issuetypeV "name" (.str "Unknown")
  let statusV ← pyGet fields "status" (.dict [])
  let status ← pyGet statusV "name" (.str "Unknown")
  let priorityV ← pyGet fields "priority" (.dict [])
  let priority ← pyGet priorityV "name" (.str "None")
  let assigneeV ← pyGet fields "assignee" (.dict [])
  let assignee ← pyGet assigneeV "displayName" (.str "Unassigned")
  let reporterV ← pyGet fields "reporter" (.dict [])
  let reporter ← pyGet reporterV "displayName" (.str "Unknown Reporter")
  pure (JVal.dict [
    ("key", issue_key),
    ("title", title),
    ("type", itype),
    ("status", status),
    ("created", .str formatted_created),
    ("priority", priority),
    ("description", .str description),
    ("assignee", assignee),
    ("reporter", reporter),
    ("comments", .list comments),
    ("link", .str (rstripSlash server ++ "/browse/" ++ pyStr issue_key))])

/-- `JiraFetcher.get_issue` (source lines 50-100): any exception raised in the
`try` block is caught and reported as `{"key": issue_key, "error": str(e)}`. -/
def JiraFetcher.get_issue (f : JiraFetcher) (issue_key : JVal) (expand : Option String) : JVal :=
  match get_issue_try (f.jira.issue issue_key expand) f.server issue_key with
  | .ok v => v
  | .error e => .dict [("key", issue_key), ("error", .str e)]

/-- One iteration of the loop on source lines 114-117: fetch the issue for the
(possibly defaulted) key and keep the document unless it carries an error. -/
def search_step (f : JiraFetcher) (expand : Option String) (documents : List JVal)
    (issue : JVal) : Except String (List JVal) := do
  let keyV ← pyGet issue "key" (.str "UNKNOWN")
  let doc := f.get_issue keyV expand
  if hasKeyB doc "error" then pure documents else pure (documents ++ [doc])

/-- The body of `search_issues`'s `try` block (source lines 106-119). -/
def search_try (f : JiraFetcher) (jql fields : String) (start limit : Int)
    (expand : Option String) : Except String (List JVal) := do
  let results ← f.jira.jql jql fields start limit expand
  if jTruthy results = false then
    return []
  let hasIssues ← pyContains results "issues"
  if hasIssues = false then
    return []
  let issuesV ← pyGet results "issues" (.list [])
  let items ← pyIter issuesV
  items.foldlM (search_step f expand) []

/-- `JiraFetcher.search_issues` (source lines 102-123): exceptions yield `[]`. -/
def JiraFetcher.search_issues (f : JiraFetcher) (jql fields : String) (start limit : Int)
    (expand : Option String) : List JVal :=
  match search_try f jql fields start limit expand with
  | .ok documents => documents
  | .error _ => []

/-- `JiraFetcher.get_project_issues` (source lines 125-128). -/
def JiraFetcher.get_project_issues (f : JiraFetcher) (project_key : String)
    (start limit : Int) : List JVal :=
  f.search_issues ("project = " ++ project_key ++ " ORDER BY created DESC") "*all" start limit none

/-- One element of the list comprehension on source line 144. -/
def project_entry (project : JVal) : Except String JVal := do
  let keyV ← pyGet project "key" .null
  let nameV ← pyGet project "name" .null
  pure (JVal.dict [("key", keyV), ("name", nameV)])

/-- The body of `get_all_projects`'s `try` block (source lines 137-145). -/
def projects_try (f : JiraFetcher) : Except String (List JVal) := do
  let projects ← f.jira.projects
  if jTruthy projects = false then
    return []
  let items ← pyIter projects
  items.mapM project_entry

/-- `JiraFetcher.get_all_projects` (source lines 130-149): exceptions yield `[]`. -/
def JiraFetcher.get_all_projects (f : JiraFetcher) : List JVal :=
  match projects_try f with
  | .ok l => l
  | .error _ => []

/-! ## The constructor (source lines 21-34) -/

/-- The arguments with which `atlassian.Jira` is constructed on lines 29-34. -/
structure Jira where
  url : String
  username : String
  password : String
  cloud : Bool

structure JiraFetcherInit where
  server : String
  email : String
  api_token : String
  jira_args : Jira

/-- `JiraFetcher.__init__`: read the three environment variables with default
`""`, raise `ValueError` unless all three are truthy (nonempty), then
construct the client with them and `cloud=True`. -/
def JiraFetcher.init (env : String → Option String) : Except String JiraFetcherInit :=
  let server := (env "JIRA_SITE").getD ""
  let email := (env "JIRA_EMAIL").getD ""
  let api_token := (env "JIRA_API_TOKEN").getD ""
  if server = "" || email = "" || api_token = "" then
    .error "Missing required Jira environment variables"
  else
    .ok { server := server, email := email, api_token := api_token,
          jira_args := { url := server, username := email, password := api_token, cloud := true } }

/-! ## Well-formedness of a fetched issue, and the record shape it produces -/

def optB (p : JVal → Bool) : Option JVal → Bool
  | none => true
  | some v => p v

/-- A field value `_clean_text` accepts: falsy, or a string. -/
def strOrFalsyB (v : JVal) : Bool := !jTruthy v || isStrB v

def exOkB : Except String String → Bool
  | .ok _ => true
  | .error _ => false

/-- A `created` value the timestamp pipeline accepts. -/
def validCreatedB : JVal → Bool
  | .str s => exOkB (fromisoformat_ymd (strReplace s "Z" "+00:00"))
  | _ => false

/-- A comment the comment loop processes without an exception. -/
def wfComment : JVal → Bool
  | .dict kvs =>
    strOrFalsyB ((jLookup kvs "body").getD (.str ""))
    && optB validCreatedB (jLookup kvs "created")
    && optB isDictB (jLookup kvs "author")
  | _ => false

/-- A `comment` section the comment loop accepts: a non-dict (skipped), or a
dict whose `comments` entry defaults to, or is, a list of processable comments. -/
def wfCommentSection : JVal → Bool
  | .dict kvs =>
    match (jLookup kvs "comments").getD (.list []) with
    | .list cs => cs.all wfComment
    | _ => false
  | _ => true

/-- Typing conditions under which the `try` block of `get_issue` runs to its
final dict literal: every optional field is absent or of the type the code
then uses. -/
def wfFields (fkvs : List (String × JVal)) : Bool :=
  strOrFalsyB ((jLookup fkvs "description").getD (.str ""))
  && wfCommentSection ((jLookup fkvs "comment").getD .null)
  && optB validCreatedB (jLookup fkvs "created")
  && optB isDictB (jLookup fkvs "issuetype")
  && optB isDictB (jLookup fkvs "status")
  && optB isDictB (jLookup fkvs "priority")
  && optB isDictB (jLookup fkvs "assignee")
  && optB isDictB (jLookup fkvs "reporter")

/-- The cleaned text of a field value (falsy non-strings clean to `""`). -/
def cleanedVal : JVal → String
  | .str s => _clean_text s
  | _ => ""

/-- The cleaned text of an optional string field. -/
def cleanedOf (o : Option JVal) : String := cleanedVal (o.getD (.str ""))

/-- The `YYYY-MM-DD` rendering of a `created` value. -/
def dateVal : JVal → String
  | .str s =>
    match fromisoformat_ymd (strReplace s "Z" "+00:00") with
    | .ok d => d
    | .error _ => ""
  | _ => ""

/-- The `YYYY-MM-DD` rendering of an optional `created` field. -/
def dateOf (o : Option JVal) : String := dateVal (o.getD (.str epochDefault))

/-- `o.getD {} |>.get key (str default)`: the nested-get pattern of lines 87-93. -/
def subGetStr (o : Option JVal) (key dflt : String) : JVal :=
  jGetD (o.getD (.dict [])) key (.str dflt)

/-- The record `get_issue` builds for one processable comment. -/
def comment_out : JVal → JVal
  | .dict kvs => .dict [
      ("body", .str (cleanedOf (jLookup kvs "body"))),
      ("created", .str (dateOf (jLookup kvs "created"))),
      ("author", subGetStr (jLookup kvs "author") "displayName" "Unknown")]
  | v => v

/-- The comment records of a `comment` section. -/
def commentsOut : JVal → List JVal
  | .dict kvs =>
    match (jLookup kvs "comments").getD (.list []) with
    | .list cs => cs.map comment_out
    | _ => []
  | _ => []

/-- The cleaned record `get_issue` returns for a well-formed issue whose
fields dictionary is `fkvs` (source lines 84-96). -/
def issue_out (server : String) (issue_key : JVal) (fkvs : List (String × JVal)) : JVal :=
  .dict [
    ("key", issue_key),
    ("title", (jLookup fkvs "summary").getD (.str "No Summary")),
    ("type", subGetStr (jLookup fkvs "issuetype") "name" "Unknown"),
    ("status", subGetStr (jLookup fkvs "status") "name" "Unknown"),
    ("created", .str (dateOf (jLookup fkvs "created"))),
    ("priority", subGetStr (jLookup fkvs "priority") "name" "None"),
    ("description", .str (cleanedOf (jLookup fkvs "description"))),
    ("assignee", subGetStr (jLookup fkvs "assignee") "displayName" "Unassigned"),
    ("reporter", subGetStr (jLookup fkvs "reporter") "displayName" "Unknown Reporter"),
    ("comments", .list (commentsOut ((jLookup fkvs "comment").getD .null))),
    ("link", .str (rstripSlash server ++ "/browse/" ++ pyStr issue_key))]

/-! ## Concrete fixtures for instantiating the theorems -/

/-- A client whose every call returns the same response. -/
def constClient (v : Except String JVal) : JiraClient :=
  { issue := fun _ _ => v, jql := fun _ _ _ _ _ => v, projects := v }

def constFetcher (server : String) (v : Except String JVal) : JiraFetcher :=
  { server := server, email := "e", api_token := "t", jira := constClient v }

/-- The fields dictionary of a well-formed demonstration issue. -/
def demoFields : List (String × JVal) := [
  ("summary", .str "Hello"),
  ("issuetype", .dict [("name", .str "Bug")]),
  ("status", .dict [("name", .str "Open")]),
  ("created", .str "2024-01-15T10:30:00.000+0000"),
  ("priority", .dict [("name", .str "High")]),
  ("description", .str "see [docs|http://x] now"),
  ("assignee", .dict [("displayName", .str "Bob")]),
  ("reporter", .dict [("displayName", .str "Cid")]),
  ("comment", .dict [("comments", .list [
     .dict [("body", .str "fine"), ("created", .str "2024-02-01T00:00:00Z"),
            ("author", .dict [("displayName", .str "Ann")])]])])]

/-- A well-formed demonstration issue. -/
def demoIssue : JVal := .dict [("fields", .dict demoFields)]

/-- An issue whose `fields` entry and the issue itself are dicts, but whose
`description` is a truthy non-string. -/
def badDescIssue : JVal := .dict [("fields", .dict [("description", .num 5)])]

def demoProjects : JVal :=
  .list [.dict [("key", .str "P"), ("name", .str "Proj")], .dict [("key", .str "Q")]]

def demoClient : JiraClient :=
  { issue := fun _ _ => .ok demoIssue,
    jql := fun _ _ _ _ _ => .ok (.dict [("issues", .list [.dict [("key", .str "K-1")]])]),
    projects := .ok demoProjects }

def demoFetcher : JiraFetcher :=
  { server := "https://x.example//", email := "e@x", api_token := "tok", jira := demoClient }

/-! ## Helper lemmas -/

theorem getD_empty_iff (o : Option String) : o.getD "" = "" ↔ (o = none ∨ o = some "") := by
  cases o <;> simp

theorem exc_bind_ok {ε : Type u} {α : Type v} {β : Type v} (a : α) (k : α → Except ε β) :
    (Except.ok a >>= k) = k a := rfl

theorem exc_bind_error {ε : Type u} {α : Type v} {β : Type v} (e : ε) (k : α → Except ε β) :
    ((Except.error e : Except ε α) >>= k) = Except.error e := rfl

theorem exc_pure {ε : Type u} {α : Type v} (a : α) : (pure a : Except ε α) = Except.ok a := rfl

theorem project_entry_ok (p : JVal) (h : isDictB p = true) :
    project_entry p = .ok (.dict [("key", jGetD p "key" .null), ("name", jGetD p "name" .null)]) := by
  cases p with
  | dict kvs => rfl
  | null => simp [isDictB] at h
  | bool b => simp [isDictB] at h
  | num n => simp [isDictB] at h
  | str s => simp [isDictB] at h
  | list xs => simp [isDictB] at h

theorem mapM_project_entry (ps : List JVal) (h : ∀ p ∈ ps, isDictB p = true) :
    ps.mapM project_entry =
      .ok (ps.map (fun p => JVal.dict [("key", jGetD p "key" .null), ("name", jGetD p "name" .null)])) := by
  induction ps with
  | nil => rfl
  | cons p ps ih =>
    rw [List.mapM_cons, project_entry_ok p (h p (by simp)), ih (fun q hq => h q (by simp [hq]))]
    rfl

/-! ## Claim C2 -/

/-- C2: no public fetch operation propagates an exception raised by the
underlying API client: when the client call raises `e`, `get_issue` returns
`{"key": issue_key, "error": str(e)}` while `search_issues` and
`get_all_projects` return the empty list (and, the model being a single
application of the client's response function, no request is retried). -/
theorem fetch_ops_catch_exceptions :
    (∀ (f : JiraFetcher) (issue_key : JVal) (expand : Option String) (e : String),
       f.jira.issue issue_key expand = .error e →
       f.get_issue issue_key expand = .dict [("key", issue_key), ("error", .str e)]) ∧
    (∀ (f : JiraFetcher) (jql fields : String) (start limit : Int) (expand : Option String)
       (e : String),
       f.jira.jql jql fields start limit expand = .error e →
       f.search_issues jql fields start limit expand = []) ∧
    (∀ (f : JiraFetcher) (e : String),
       f.jira.projects = .error e → f.get_all_projects = []) := by
  refine ⟨?_, ?_, ?_⟩
  · intro f issue_key expand e h
    simp only [JiraFetcher.get_issue, get_issue_try, h]
    rfl
  · intro f jql fields start limit expand e h
    simp only [JiraFetcher.search_issues, search_try, h]
    rfl
  · intro f e h
    simp only [JiraFetcher.get_all_projects, projects_try, h]
    rfl

theorem fetch_ops_catch_exceptions_witness :
    (constFetcher "s" (.error "boom")).get_issue (.str "K") none =
      .dict [("key", .str "K"), ("error", .str "boom")] ∧
    (constFetcher "s" (.error "boom")).search_issues "q" "*all" 0 50 none = [] ∧
    (constFetcher "s" (.error "boom")).get_all_projects = [] :=
  ⟨fetch_ops_catch_exceptions.1 _ _ _ _ rfl,
   fetch_ops_catch_exceptions.2.1 _ _ _ _ _ _ _ rfl,
   fetch_ops_catch_exceptions.2.2 _ _ rfl⟩

/-! ## Claim C6 -/

/-- C6: `search_issues` passes `start` and `limit` through to the client's
`jql` call unmodified — its result depends on the client only through the
single application at exactly `(jql, fields, start, limit, expand)` and
through `issue` — and `get_project_issues` forwards its `start` and `limit`
unchanged together with the JQL string
`project = {project_key} ORDER BY created DESC`. -/
theorem search_passes_start_limit :
    (∀ (f g : JiraFetcher) (jql fields : String) (start limit : Int) (expand : Option String),
       f.jira.jql jql fields start limit expand = g.jira.jql jql fields start limit expand →
       f.jira.issue = g.jira.issue → f.server = g.server →
       f.search_issues jql fields start limit expand =
         g.search_issues jql fields start limit expand) ∧
    (∀ (f : JiraFetcher) (project_key : String) (start limit : Int),
       f.get_project_issues project_key start limit =
         f.search_issues ("project = " ++ project_key ++ " ORDER BY created DESC")
           "*all" start limit none) := by
  constructor
  · intro f g jql fields start limit expand hjql hissue hserver
    unfold JiraFetcher.search_issues search_try search_step JiraFetcher.get_issue
    rw [hjql, hissue, hserver]
  · intro f project_key start limit
    rfl

theorem search_passes_start_limit_witness :
    (constFetcher "s" (.ok .null)).search_issues "q" "*all" 3 7 none =
      { server := "s", email := "x", api_token := "y",
        jira := constClient (.ok .null) : JiraFetcher }.search_issues "q" "*all" 3 7 none ∧
    (constFetcher "s" (.ok .null)).get_project_issues "PR" 3 7 =
      (constFetcher "s" (.ok .null)).search_issues "project = PR ORDER BY created DESC"
        "*all" 3 7 none :=
  ⟨search_passes_start_limit.1 _ _ _ _ _ _ _ rfl rfl rfl,
   search_passes_start_limit.2 _ _ _ _⟩

/-! ## Claim C7 -/

/-- C7: `get_all_projects` returns one `{"key": ..., "name": ...}` record per
project returned by the client, in order, reading each project's `key` and
`name` entries; a falsy client result yields the empty list. -/
theorem get_all_projects_shape :
    (∀ (f : JiraFetcher) (v : JVal),
       f.jira.projects = .ok v → jTruthy v = false → f.get_all_projects = []) ∧
    (∀ (f : JiraFetcher) (ps : List JVal),
       f.jira.projects = .ok (.list ps) → (∀ p ∈ ps, isDictB p = true) →
       f.get_all_projects =
         ps.map (fun p => .dict [("key", jGetD p "key" .null), ("name", jGetD p "name" .null)])) := by
  constructor
  · intro f v hproj hfalsy
    simp only [JiraFetcher.get_all_projects, projects_try, hproj, exc_bind_ok, hfalsy]
    rfl
  · intro f ps hproj hdicts
    simp only [JiraFetcher.get_all_projects, projects_try, hproj, exc_bind_ok]
    cases ps with
    | nil => rfl
    | cons p ps' =>
      rw [if_neg (by simp [jTruthy])]
      simp only [pyIter, exc_bind_ok, mapM_project_entry _ hdicts]
      rfl

theorem get_all_projects_shape_witness :
    (constFetcher "s" (.ok (.list []))).get_all_projects = [] ∧
    (constFetcher "s" (.ok demoProjects)).get_all_projects =
      [.dict [("key", .str "P"), ("name", .str "Proj")],
       .dict [("key", .str "Q"), ("name", .null)]] := by
  constructor
  · exact get_all_projects_shape.1 _ _ rfl (by decide)
  · have h := get_all_projects_shape.2 (constFetcher "s" (.ok demoProjects))
      [.dict [("key", .str "P"), ("name", .str "Proj")], .dict [("key", .str "Q")]]
      rfl (by decide)
    simpa [jGetD, jLookup] using h

/-! ## Claim C10 -/

/-- C10: the constructor fails with `ValueError` if and only if at least one
of `JIRA_SITE`, `JIRA_EMAIL`, `JIRA_API_TOKEN` is unset or empty; otherwise
it constructs the API client with exactly those three values as `url`,
`username` and `password`, with `cloud=True`. -/
theorem init_env_validation :
    ∀ env : String → Option String,
      ((JiraFetcher.init env).isOk = false ↔
        ((env "JIRA_SITE" = none ∨ env "JIRA_SITE" = some "") ∨
         (env "JIRA_EMAIL" = none ∨ env "JIRA_EMAIL" = some "") ∨
         (env "JIRA_API_TOKEN" = none ∨ env "JIRA_API_TOKEN" = some ""))) ∧
      (∀ r, JiraFetcher.init env = .ok r →
        r.server = (env "JIRA_SITE").getD "" ∧
        r.email = (env "JIRA_EMAIL").getD "" ∧
        r.api_token = (env "JIRA_API_TOKEN").getD "" ∧
        r.jira_args = { url := (env "JIRA_SITE").getD "",
                        username := (env "JIRA_EMAIL").getD "",
                        password := (env "JIRA_API_TOKEN").getD "",
                        cloud := true }) := by
  intro env
  constructor
  · rw [← getD_empty_iff, ← getD_empty_iff, ← getD_empty_iff]
    simp only [JiraFetcher.init]
    split
    · next h =>
      simp only [Bool.or_eq_true, decide_eq_true_eq] at h
      exact iff_of_true rfl (by tauto)
    · next h =>
      simp only [Bool.or_eq_true, decide_eq_true_eq] at h
      exact iff_of_false (by simp [Except.isOk, Except.toBool]) (by tauto)
  · intro r hr
    simp only [JiraFetcher.init] at hr
    split at hr
    · exact absurd hr (by simp)
    · injection hr with hr'
      subst hr'
      exact ⟨rfl, rfl, rfl, rfl⟩

/-! ## Claim C9 -/

theorem pyGet_dict (kvs : List (String × JVal)) (key : String) (d : JVal) :
    pyGet (.dict kvs) key d = .ok ((jLookup kvs key).getD d) := rfl

theorem pyGet_of_dict (v : JVal) (h : isDictB v = true) (key : String) (d : JVal) :
    pyGet v key d = .ok (jGetD v key d) := by
  cases v with
  | dict kvs => rfl
  | null => simp [isDictB] at h
  | bool b => simp [isDictB] at h
  | num n => simp [isDictB] at h
  | str s => simp [isDictB] at h
  | list xs => simp [isDictB] at h

theorem search_foldlM_error_free (f : JiraFetcher) (expand : Option String) :
    ∀ (items acc out : List JVal),
      (∀ d ∈ acc, hasKeyB d "error" = false) →
      items.foldlM (search_step f expand) acc = .ok out →
      ∀ d ∈ out, hasKeyB d "error" = false := by
  intro items
  induction items with
  | nil =>
    intro acc out hacc h
    rw [List.foldlM_nil, exc_pure] at h
    cases h
    exact hacc
  | cons i is ih =>
    intro acc out hacc h
    rw [List.foldlM_cons] at h
    cases hpg : pyGet i "key" (.str "UNKNOWN") with
    | error e =>
      rw [show search_step f expand acc i = .error e from by
            simp only [search_step, hpg, exc_bind_error],
          exc_bind_error] at h
      cases h
    | ok keyV =>
      have hstep : search_step f expand acc i =
          .ok (if hasKeyB (f.get_issue keyV expand) "error" = true then acc
               else acc ++ [f.get_issue keyV expand]) := by
        simp only [search_step, hpg, exc_bind_ok]
        split <;> rfl
      rw [hstep, exc_bind_ok] at h
      refine ih _ out ?_ h
      intro d hd
      split at hd
      · exact hacc d hd
      · next hkey =>
        rcases List.mem_append.mp hd with hd | hd
        · exact hacc d hd
        · simp only [Bool.not_eq_true] at hkey
          rcases List.mem_singleton.mp hd with rfl
          exact hkey

theorem search_foldlM_filter (f : JiraFetcher) (expand : Option String) :
    ∀ items : List JVal, (∀ i ∈ items, isDictB i = true) → ∀ acc : List JVal,
      items.foldlM (search_step f expand) acc =
        .ok (acc ++
          (items.map (fun i => f.get_issue (jGetD i "key" (.str "UNKNOWN")) expand)).filter
            (fun d => !hasKeyB d "error")) := by
  intro items
  induction items with
  | nil => intro _ acc; simp [List.foldlM_nil, exc_pure]
  | cons i is ih =>
    intro hdicts acc
    rw [List.foldlM_cons]
    have hstep : search_step f expand acc i =
        .ok (if hasKeyB (f.get_issue (jGetD i "key" (.str "UNKNOWN")) expand) "error" = true
             then acc
             else acc ++ [f.get_issue (jGetD i "key" (.str "UNKNOWN")) expand]) := by
      simp only [search_step, pyGet_of_dict i (hdicts i (by simp)), exc_bind_ok]
      split <;> rfl
    rw [hstep, exc_bind_ok, ih (fun j hj => hdicts j (by simp [hj])) _]
    cases hc : hasKeyB (f.get_issue (jGetD i "key" (.str "UNKNOWN")) expand) "error" <;>
      simp [hc, List.filter_cons, List.append_assoc]

theorem search_try_error_free (f : JiraFetcher) (jql fields : String) (start limit : Int)
    (expand : Option String) (out : List JVal)
    (h : search_try f jql fields start limit expand = .ok out) :
    ∀ d ∈ out, hasKeyB d "error" = false := by
  unfold search_try at h
  cases hr : f.jira.jql jql fields start limit expand with
  | error e => rw [hr, exc_bind_error] at h; cases h
  | ok results =>
    rw [hr, exc_bind_ok] at h
    by_cases ht : jTruthy results = false
    · rw [if_pos ht, exc_pure] at h
      cases h
      simp
    · rw [if_neg ht] at h
      cases hc : pyContains results "issues" with
      | error e => rw [hc, exc_bind_error] at h; cases h
      | ok b =>
        rw [hc, exc_bind_ok] at h
        by_cases hb : b = false
        · subst hb
          rw [if_pos rfl, exc_pure] at h
          cases h
          simp
        · rw [if_neg hb] at h
          cases hg : pyGet results "issues" (.list []) with
          | error e => rw [hg, exc_bind_error] at h; cases h
          | ok issuesV =>
            rw [hg, exc_bind_ok] at h
            cases hi : pyIter issuesV with
            | error e => rw [hi, exc_bind_error] at h; cases h
            | ok items =>
              rw [hi, exc_bind_ok] at h
              exact search_foldlM_error_free f expand items [] out (by simp) h

/-- C9: every element of the list returned by `search_issues` is free of
errors (no `"error"` key); for a dict response whose `issues` entry is a list
of dicts, the result is exactly the `get_issue` result for each issue's key
(with `"UNKNOWN"` substituted for a missing key) with the error-carrying
results silently dropped; and a falsy response, or one without an `"issues"`
entry, yields the empty list. -/
theorem search_results_error_free :
    (∀ (f : JiraFetcher) (jql fields : String) (start limit : Int) (expand : Option String),
       ∀ d ∈ f.search_issues jql fields start limit expand, hasKeyB d "error" = false) ∧
    (∀ (f : JiraFetcher) (jql fields : String) (start limit : Int) (expand : Option String)
       (rkvs : List (String × JVal)) (items : List JVal),
       f.jira.jql jql fields start limit expand = .ok (.dict rkvs) →
       jLookup rkvs "issues" = some (.list items) →
       (∀ i ∈ items, isDictB i = true) →
       f.search_issues jql fields start limit expand =
         (items.map (fun i => f.get_issue (jGetD i "key" (.str "UNKNOWN")) expand)).filter
           (fun d => !hasKeyB d "error")) ∧
    (∀ (f : JiraFetcher) (jql fields : String) (start limit : Int) (expand : Option String)
       (v : JVal),
       f.jira.jql jql fields start limit expand = .ok v → jTruthy v = false →
       f.search_issues jql fields start limit expand = []) ∧
    (∀ (f : JiraFetcher) (jql fields : String) (start limit : Int) (expand : Option String)
       (rkvs : List (String × JVal)),
       f.jira.jql jql fields start limit expand = .ok (.dict rkvs) →
       jLookup rkvs "issues" = none →
       f.search_issues jql fields start limit expand = []) := by
  refine ⟨?_, ?_, ?_, ?_⟩
  · intro f jql fields start limit expand d hd
    simp only [JiraFetcher.search_issues] at hd
    cases hs : search_try f jql fields start limit expand with
    | error e => rw [hs] at hd; cases hd
    | ok out =>
      rw [hs] at hd
      exact search_try_error_free f jql fields start limit expand out hs d hd
  · intro f jql fields start limit expand rkvs items hjql hiss hdicts
    have hne : rkvs ≠ [] := by rintro rfl; simp [jLookup] at hiss
    simp only [JiraFetcher.search_issues, search_try, hjql, exc_bind_ok, pyGet_dict,
      pyContains, pyIter]
    rw [if_neg (by simp [jTruthy, List.isEmpty_iff, hne]), hiss]
    simp only [Option.isSome_some, Option.getD_some, exc_bind_ok, pyIter]
    rw [if_neg (by simp)]
    rw [search_foldlM_filter f expand items hdicts []]
    rfl
  · intro f jql fields start limit expand v hjql hfalsy
    simp only [JiraFetcher.search_issues, search_try, hjql, exc_bind_ok]
    rw [if_pos hfalsy]
    rfl
  · intro f jql fields start limit expand rkvs hjql hnone
    simp only [JiraFetcher.search_issues, search_try, hjql, exc_bind_ok, pyContains]
    by_cases ht : jTruthy (JVal.dict rkvs) = false
    · rw [if_pos ht]; rfl
    · rw [if_neg ht, hnone]
      simp only [Option.isSome_none, exc_bind_ok]
      rfl

theorem search_results_error_free_witness :
    demoFetcher.search_issues "q" "*all" 0 50 none =
      ([(.dict [("key", .str "K-1")] : JVal)].map
        (fun i => demoFetcher.get_issue (jGetD i "key" (.str "UNKNOWN")) none)).filter
        (fun d => !hasKeyB d "error") ∧
    (constFetcher "s" (.ok (.dict []))).search_issues "q" "*all" 0 50 none = [] :=
  ⟨search_results_error_free.2.1 demoFetcher "q" "*all" 0 50 none
      [("issues", .list [.dict [("key", .str "K-1")]])] [.dict [("key", .str "K-1")]]
      rfl rfl (by decide),
   search_results_error_free.2.2.1 (constFetcher "s" (.ok (.dict []))) "q" "*all" 0 50 none
      (.dict []) rfl (by decide)⟩

/-! ## Claim C3 -/

/-- C3: `get_issue` validates the client's response only with defensive type
checks: a falsy or non-dict issue yields the `Issue not found or missing
data` error record; a present but non-dict `fields` entry yields the `Issue
missing fields` error record; and when `fields["comment"]` is not a dict the
comments list stays empty (the result is an error record only if a later
step raises, and otherwise carries `"comments" = []`). -/
theorem get_issue_defensive_checks :
    (∀ (f : JiraFetcher) (issue_key v : JVal) (expand : Option String),
       f.jira.issue issue_key expand = .ok v →
       (jTruthy v = false ∨ isDictB v = false) →
       f.get_issue issue_key expand =
         .dict [("key", issue_key), ("error", .str "Issue not found or missing data")]) ∧
    (∀ (f : JiraFetcher) (issue_key : JVal) (expand : Option String)
       (ikvs : List (String × JVal)) (fv : JVal),
       f.jira.issue issue_key expand = .ok (.dict ikvs) → ikvs ≠ [] →
       jLookup ikvs "fields" = some fv → isDictB fv = false →
       f.get_issue issue_key expand =
         .dict [("key", issue_key), ("error", .str "Issue missing fields")]) ∧
    (∀ (f : JiraFetcher) (issue_key : JVal) (expand : Option String)
       (ikvs fkvs : List (String × JVal)),
       f.jira.issue issue_key expand = .ok (.dict ikvs) → ikvs ≠ [] →
       (jLookup ikvs "fields").getD (.dict []) = .dict fkvs →
       isDictB ((jLookup fkvs "comment").getD .null) = false →
       (∃ e, f.get_issue issue_key expand = .dict [("key", issue_key), ("error", .str e)]) ∨
         dictLookup (f.get_issue issue_key expand) "comments" = some (.list [])) := by
  refine ⟨?_, ?_, ?_⟩
  · intro f issue_key v expand hresp hbad
    simp only [JiraFetcher.get_issue, get_issue_try, hresp, exc_bind_ok]
    rw [if_pos (by rcases hbad with h | h <;> simp [h])]
    rfl
  · intro f issue_key expand ikvs fv hresp hne hfv hnd
    simp only [JiraFetcher.get_issue, get_issue_try, hresp, exc_bind_ok, pyGet_dict]
    rw [if_neg (by simp [jTruthy, isDictB, List.isEmpty_iff, hne]), hfv]
    simp only [Option.getD_some]
    rw [if_pos (by simp [hnd])]
    rfl
  · intro f issue_key expand ikvs fkvs hresp hne hf hcm
    simp only [JiraFetcher.get_issue, get_issue_try, hresp, exc_bind_ok, pyGet_dict]
    rw [hf, if_neg (by simp [jTruthy, List.isEmpty_iff, hne, isDictB]),
      if_neg (by simp [isDictB])]
    simp only [pyGet_dict, exc_pure, exc_bind_ok]
    cases hdesc : clean_text_j ((jLookup fkvs "description").getD (.str "")) with
    | error e =>
      rw [exc_bind_error]
      exact Or.inl ⟨e, rfl⟩
    | ok description =>
      rw [exc_bind_ok]
      have hpc : processComments ((jLookup fkvs "comment").getD .null) = .ok [] := by
        unfold processComments
        rw [if_neg (by simp [hcm])]
        rfl
      rw [hpc, exc_bind_ok]
      cases hca : asStr ((jLookup fkvs "created").getD (.str epochDefault)) with
      | error e => rw [exc_bind_error]; exact Or.inl ⟨e, rfl⟩
      | ok createdS =>
        rw [exc_bind_ok]
        cases hfi : fromisoformat_ymd (strReplace createdS "Z" "+00:00") with
        | error e => rw [exc_bind_error]; exact Or.inl ⟨e, rfl⟩
        | ok formatted =>
          rw [exc_bind_ok]
          cases h1 : pyGet ((jLookup fkvs "issuetype").getD (.dict [])) "name" (.str "Unknown") with
          | error e => rw [exc_bind_error]; exact Or.inl ⟨e, rfl⟩
          | ok itype =>
            rw [exc_bind_ok]
            cases h2 : pyGet ((jLookup fkvs "status").getD (.dict [])) "name" (.str "Unknown") with
            | error e => rw [exc_bind_error]; exact Or.inl ⟨e, rfl⟩
            | ok status =>
              rw [exc_bind_ok]
              cases h3 : pyGet ((jLookup fkvs "priority").getD (.dict [])) "name" (.str "None") with
              | error e => rw [exc_bind_error]; exact Or.inl ⟨e, rfl⟩
              | ok priority =>
                rw [exc_bind_ok]
                cases h4 : pyGet ((jLookup fkvs "assignee").getD (.dict [])) "displayName"
                    (.str "Unassigned") with
                | error e => rw [exc_bind_error]; exact Or.inl ⟨e, rfl⟩
                | ok assignee =>
                  rw [exc_bind_ok]
                  cases h5 : pyGet ((jLookup fkvs "reporter").getD (.dict [])) "displayName"
                      (.str "Unknown Reporter") with
                  | error e => rw [exc_bind_error]; exact Or.inl ⟨e, rfl⟩
                  | ok reporter =>
                    rw [exc_bind_ok]
                    exact Or.inr (by simp [exc_pure, dictLookup, jLookup])

theorem get_issue_defensive_checks_witness :
    (constFetcher "s" (.ok .null)).get_issue (.str "K") none =
      .dict [("key", .str "K"), ("error", .str "Issue not found or missing data")] ∧
    (constFetcher "s" (.ok (.dict [("fields", .str "x")]))).get_issue (.str "K") none =
      .dict [("key", .str "K"), ("error", .str "Issue missing fields")] ∧
    ((∃ e, (constFetcher "s" (.ok (.dict [("fields", .dict [("comment", .str "no")])]))).get_issue
        (.str "K") none = .dict [("key", .str "K"), ("error", .str e)]) ∨
      dictLookup ((constFetcher "s"
        (.ok (.dict [("fields", .dict [("comment", .str "no")])]))).get_issue (.str "K") none)
        "comments" = some (.list [])) :=
  ⟨get_issue_defensive_checks.1 _ _ _ _ rfl (Or.inl (by decide)),
   get_issue_defensive_checks.2.1 _ _ _ [("fields", .str "x")] (.str "x") rfl
     (List.cons_ne_nil _ _) rfl (by decide),
   get_issue_defensive_checks.2.2 _ _ _ [("fields", .dict [("comment", .str "no")])]
     [("comment", .str "no")] rfl (List.cons_ne_nil _ _) rfl (by decide)⟩

theorem init_env_validation_witness :
    (JiraFetcher.init (fun _ => some "v")).isOk = false ↔
      (((fun _ => some "v") "JIRA_SITE" = none ∨ (fun _ => some "v") "JIRA_SITE" = some "") ∨
       ((fun _ => some "v") "JIRA_EMAIL" = none ∨ (fun _ => some "v") "JIRA_EMAIL" = some "") ∨
       ((fun _ => some "v") "JIRA_API_TOKEN" = none ∨
        (fun _ => some "v") "JIRA_API_TOKEN" = some "")) :=
  (init_env_validation (fun _ => some "v")).1

/-! ## Claims C4 and C5: the record produced for a well-formed issue -/

theorem clean_text_j_ok (v : JVal) (h : strOrFalsyB v = true) :
    clean_text_j v = .ok (cleanedVal v) := by
  cases v with
  | str s =>
    by_cases hs : s = ""
    · subst hs; rfl
    · simp [clean_text_j, jTruthy, cleanedVal, hs]
  | null => rfl
  | bool b =>
    cases b
    · rfl
    · simp [strOrFalsyB, jTruthy, isStrB] at h
  | num n =>
    have hn : n = 0 := by simpa [strOrFalsyB, jTruthy, isStrB] using h
    subst hn; rfl
  | list xs =>
    cases xs with
    | nil => rfl
    | cons a l => simp [strOrFalsyB, jTruthy, isStrB] at h
  | dict kvs =>
    cases kvs with
    | nil => rfl
    | cons a l => simp [strOrFalsyB, jTruthy, isStrB] at h

theorem exOkB_iff (x : Except String String) : exOkB x = true ↔ ∃ d, x = .ok d := by
  cases x <;> simp [exOkB]

theorem validCreatedB_elim (v : JVal) (h : validCreatedB v = true) :
    ∃ s d, v = .str s ∧ fromisoformat_ymd (strReplace s "Z" "+00:00") = .ok d ∧
      dateVal v = d := by
  cases v with
  | str s =>
    rcases (exOkB_iff _).mp h with ⟨d, hd⟩
    exact ⟨s, d, rfl, hd, by simp [dateVal, hd]⟩
  | null => simp [validCreatedB] at h
  | bool b => simp [validCreatedB] at h
  | num n => simp [validCreatedB] at h
  | list xs => simp [validCreatedB] at h
  | dict kvs => simp [validCreatedB] at h

theorem pyGet_optDict (o : Option JVal) (h : optB isDictB o = true) (key dflt : String) :
    pyGet (o.getD (.dict [])) key (.str dflt) = .ok (subGetStr o key dflt) := by
  cases o with
  | none => rfl
  | some v => exact pyGet_of_dict v h key (.str dflt)

theorem processComment_wf (c : JVal) (h : wfComment c = true) :
    processComment c = .ok (comment_out c) := by
  cases c with
  | dict kvs =>
    simp only [wfComment, Bool.and_eq_true] at h
    obtain ⟨⟨hbody, hcrea⟩, haut⟩ := h
    simp only [processComment, pyGet_dict, exc_bind_ok]
    rw [clean_text_j_ok _ hbody, exc_bind_ok]
    cases hco : jLookup kvs "created" with
    | none =>
      simp only [Option.getD_none]
      rw [show asStr (JVal.str epochDefault) = .ok epochDefault from rfl, exc_bind_ok,
        show fromisoformat_ymd (strReplace epochDefault "Z" "+00:00") = .ok "1970-01-01"
          from rfl, exc_bind_ok, pyGet_optDict _ haut, exc_bind_ok]
      have he : dateVal (JVal.str epochDefault) = "1970-01-01" := rfl
      simp [comment_out, cleanedOf, dateOf, hco, he, exc_pure]
    | some cv =>
      rw [hco] at hcrea
      simp only [Option.getD_some]
      obtain ⟨s, d, hcv, hd, hdv⟩ := validCreatedB_elim cv hcrea
      subst hcv
      rw [show asStr (JVal.str s) = .ok s from rfl, exc_bind_ok, hd, exc_bind_ok,
        pyGet_optDict _ haut, exc_bind_ok]
      simp [comment_out, cleanedOf, dateOf, hco, hdv, exc_pure]
  | null => simp [wfComment] at h
  | bool b => simp [wfComment] at h
  | num n => simp [wfComment] at h
  | str s => simp [wfComment] at h
  | list xs => simp [wfComment] at h

theorem mapM_processComment (cs : List JVal) (h : ∀ c ∈ cs, wfComment c = true) :
    cs.mapM processComment = .ok (cs.map comment_out) := by
  induction cs with
  | nil => rfl
  | cons c cs ih =>
    rw [List.mapM_cons, processComment_wf c (h c (by simp)),
      ih (fun x hx => h x (by simp [hx]))]
    rfl

theorem processComments_wf (v : JVal) (h : wfCommentSection v = true) :
    processComments v = .ok (commentsOut v) := by
  cases v with
  | dict kvs =>
    simp only [processComments, isDictB, if_true]
    cases hcm : (jLookup kvs "comments").getD (.list []) with
    | list cs =>
      simp only [wfCommentSection, hcm] at h
      simp only [pyGet_dict, exc_bind_ok, hcm, pyIter, exc_bind_ok]
      rw [mapM_processComment cs (by simpa using h)]
      simp [commentsOut, hcm]
    | null => simp [wfCommentSection, hcm] at h
    | bool b => simp [wfCommentSection, hcm] at h
    | num n => simp [wfCommentSection, hcm] at h
    | str s => simp [wfCommentSection, hcm] at h
    | dict kvs2 => simp [wfCommentSection, hcm] at h
  | null => rfl
  | bool b => rfl
  | num n => rfl
  | str s => rfl
  | list xs => rfl

theorem get_issue_try_wf (resp : Except String JVal) (server : String) (issue_key : JVal)
    (ikvs fkvs : List (String × JVal))
    (hresp : resp = .ok (.dict ikvs)) (hne : ikvs ≠ [])
    (hf : (jLookup ikvs "fields").getD (.dict []) = .dict fkvs)
    (hwf : wfFields fkvs = true) :
    get_issue_try resp server issue_key = .ok (issue_out server issue_key fkvs) := by
  simp only [wfFields, Bool.and_eq_true] at hwf
  obtain ⟨⟨⟨⟨⟨⟨⟨hdesc, hcomm⟩, hcrea⟩, hity⟩, hsta⟩, hpri⟩, hass⟩, hrep⟩ := hwf
  subst hresp
  simp only [get_issue_try, exc_bind_ok, pyGet_dict]
  rw [hf, if_neg (by simp [jTruthy, List.isEmpty_iff, hne, isDictB]),
    if_neg (by simp [isDictB])]
  simp only [pyGet_dict, exc_pure, exc_bind_ok]
  rw [clean_text_j_ok _ hdesc, exc_bind_ok, processComments_wf _ hcomm, exc_bind_ok]
  cases hco : jLookup fkvs "created" with
  | none =>
    simp only [Option.getD_none]
    rw [show asStr (JVal.str epochDefault) = .ok epochDefault from rfl, exc_bind_ok,
      show fromisoformat_ymd (strReplace epochDefault "Z" "+00:00") = .ok "1970-01-01"
        from rfl, exc_bind_ok, pyGet_optDict _ hity, exc_bind_ok,
      pyGet_optDict _ hsta, exc_bind_ok, pyGet_optDict _ hpri, exc_bind_ok,
      pyGet_optDict _ hass, exc_bind_ok, pyGet_optDict _ hrep, exc_bind_ok]
    have he : dateVal (JVal.str epochDefault) = "1970-01-01" := rfl
    simp [issue_out, cleanedOf, dateOf, hco, he, exc_pure]
  | some cv =>
    rw [hco] at hcrea
    simp only [Option.getD_some]
    obtain ⟨s, d, hcv, hd, hdv⟩ := validCreatedB_elim cv hcrea
    subst hcv
    rw [show asStr (JVal.str s) = .ok s from rfl, exc_bind_ok, hd, exc_bind_ok,
      pyGet_optDict _ hity, exc_bind_ok, pyGet_optDict _ hsta, exc_bind_ok,
      pyGet_optDict _ hpri, exc_bind_ok, pyGet_optDict _ hass, exc_bind_ok,
      pyGet_optDict _ hrep, exc_bind_ok]
    simp [issue_out, cleanedOf, dateOf, hco, hdv, exc_pure]

/-- C4 as stated is falsified by the code: an issue for which `issue` and
`fields` are both dicts can still produce the error record (without `title`
and the other ten keys) when an optional field has an unexpected type — here
a numeric `description` makes `re.sub` raise `TypeError` inside the `try`. -/
theorem get_issue_dicts_not_enough :
    isDictB badDescIssue = true ∧
    isDictB (jGetD badDescIssue "fields" (.dict [])) = true ∧
    dictLookup ((constFetcher "s" (.ok badDescIssue)).get_issue (.str "K") none) "title" = none ∧
    (constFetcher "s" (.ok badDescIssue)).get_issue (.str "K") none =
      .dict [("key", .str "K"),
             ("error", .str "TypeError: expected string or bytes-like object")] :=
  ⟨rfl, rfl, rfl, rfl⟩

/-- C4 (amended): for every well-formed issue — issue and fields are dicts
*and* every optional field is absent or of the type the code then uses
(`wfFields`) — `get_issue` returns a dict with exactly the keys `key`,
`title`, `type`, `status`, `created`, `priority`, `description`, `assignee`,
`reporter`, `comments`, `link`, where `description` is the cleaned
description, `created` is the timestamp reformatted as `YYYY-MM-DD` (the
ten-character date prefix), `comments` is the list of
`{body, created, author}` records with cleaned bodies, and `link` is the
server URL with trailing slashes stripped followed by `/browse/` and the
issue key. -/
theorem get_issue_wellformed_output :
    (∀ (f : JiraFetcher) (issue_key : JVal) (expand : Option String)
       (ikvs fkvs : List (String × JVal)),
       f.jira.issue issue_key expand = .ok (.dict ikvs) → ikvs ≠ [] →
       (jLookup ikvs "fields").getD (.dict []) = .dict fkvs →
       wfFields fkvs = true →
       f.get_issue issue_key expand = issue_out f.server issue_key fkvs) ∧
    (∀ s d, fromisoformat_ymd s = .ok d → d.data = s.data.take 10) := by
  constructor
  · intro f issue_key expand ikvs fkvs hresp hne hf hwf
    simp only [JiraFetcher.get_issue,
      get_issue_try_wf (f.jira.issue issue_key expand) f.server issue_key ikvs fkvs
        hresp hne hf hwf]
  · intro s d h
    unfold fromisoformat_ymd at h
    split at h
    · next y1 y2 y3 y4 m1 m2 d1 d2 rest heq =>
      split at h
      · injection h with h'
        subst h'
        rw [heq]
        rfl
      · cases h
    · cases h

theorem get_issue_wellformed_output_witness :
    demoFetcher.get_issue (.str "K-1") none =
      issue_out demoFetcher.server (.str "K-1") demoFields ∧
    ("2024-01-15" : String).data = ("2024-01-15T10:30:00.000+0000" : String).data.take 10 :=
  ⟨get_issue_wellformed_output.1 demoFetcher (.str "K-1") none
      [("fields", .dict demoFields)] demoFields rfl (List.cons_ne_nil _ _) rfl (by decide),
   get_issue_wellformed_output.2 "2024-01-15T10:30:00.000+0000" "2024-01-15" rfl⟩

/-- C5: for every well-formed issue in which an optional field is absent,
`get_issue` substitutes the fixed default: `title = "No Summary"`,
`type`/`status` = `"Unknown"`, `priority = "None"`,
`assignee = "Unassigned"`, `reporter = "Unknown Reporter"`; a missing
`created` (of the issue or of a comment) defaults to the epoch and formats
as `"1970-01-01"`; and a comment's missing author `displayName` becomes
`"Unknown"`. -/
theorem get_issue_defaults :
    (∀ (f : JiraFetcher) (issue_key : JVal) (expand : Option String)
       (ikvs fkvs : List (String × JVal)),
       f.jira.issue issue_key expand = .ok (.dict ikvs) → ikvs ≠ [] →
       (jLookup ikvs "fields").getD (.dict []) = .dict fkvs →
       wfFields fkvs = true →
       (jLookup fkvs "summary" = none →
          dictLookup (f.get_issue issue_key expand) "title" = some (.str "No Summary")) ∧
       (jLookup fkvs "issuetype" = none →
          dictLookup (f.get_issue issue_key expand) "type" = some (.str "Unknown")) ∧
       (jLookup fkvs "status" = none →
          dictLookup (f.get_issue issue_key expand) "status" = some (.str "Unknown")) ∧
       (jLookup fkvs "priority" = none →
          dictLookup (f.get_issue issue_key expand) "priority" = some (.str "None")) ∧
       (jLookup fkvs "assignee" = none →
          dictLookup (f.get_issue issue_key expand) "assignee" = some (.str "Unassigned")) ∧
       (jLookup fkvs "reporter" = none →
          dictLookup (f.get_issue issue_key expand) "reporter" =
            some (.str "Unknown Reporter")) ∧
       (jLookup fkvs "created" = none →
          dictLookup (f.get_issue issue_key expand) "created" = some (.str "1970-01-01"))) ∧
    (∀ ckvs : List (String × JVal),
       (jLookup ckvs "created" = none →
          dictLookup (comment_out (.dict ckvs)) "created" = some (.str "1970-01-01")) ∧
       ((jLookup ckvs "author" = none ∨
         (∃ akvs, jLookup ckvs "author" = some (.dict akvs) ∧
            jLookup akvs "displayName" = none)) →
          dictLookup (comment_out (.dict ckvs)) "author" = some (.str "Unknown"))) := by
  constructor
  · intro f issue_key expand ikvs fkvs hresp hne hf hwf
    have hout : f.get_issue issue_key expand = issue_out f.server issue_key fkvs := by
      simp only [JiraFetcher.get_issue,
        get_issue_try_wf (f.jira.issue issue_key expand) f.server issue_key ikvs fkvs
          hresp hne hf hwf]
    rw [hout]
    have he : dateVal (JVal.str epochDefault) = "1970-01-01" := rfl
    refine ⟨?_, ?_, ?_, ?_, ?_, ?_, ?_⟩ <;> intro habs <;>
      simp [issue_out, dictLookup, jLookup, habs, subGetStr, jGetD, dateOf, he]
  · intro ckvs
    have he : dateVal (JVal.str epochDefault) = "1970-01-01" := rfl
    constructor
    · intro habs
      simp [comment_out, dictLookup, jLookup, habs, dateOf, he]
    · intro haut
      rcases haut with habs | ⟨akvs, hsome, hnone⟩
      · simp [comment_out, dictLookup, jLookup, habs, subGetStr, jGetD]
      · simp [comment_out, dictLookup, jLookup, hsome, hnone, subGetStr, jGetD]

theorem get_issue_defaults_witness :
    dictLookup ((constFetcher "s" (.ok (.dict [("fields", .dict [])]))).get_issue
      (.str "K") none) "title" = some (.str "No Summary") ∧
    dictLookup ((constFetcher "s" (.ok (.dict [("fields", .dict [])]))).get_issue
      (.str "K") none) "created" = some (.str "1970-01-01") ∧
    dictLookup (comment_out (.dict [])) "author" = some (.str "Unknown") :=
  ⟨(get_issue_defaults.1 _ _ none [("fields", .dict [])] [] rfl (List.cons_ne_nil _ _)
      rfl (by decide)).1 rfl,
   (get_issue_defaults.1 _ _ none [("fields", .dict [])] [] rfl (List.cons_ne_nil _ _)
      rfl (by decide)).2.2.2.2.2.2 rfl,
   (get_issue_defaults.2 []).2 (Or.inl rfl)⟩

/-! ## Claims C1 and C8: infrastructure for the substitution engine -/

theorem subAllF_eq_subAll (m : Matcher) :
    ∀ (fuel : Nat) (s : List Char), s.length ≤ fuel → subAllF m fuel s = subAll m s := by
  intro fuel
  induction fuel using Nat.strong_induction_on with
  | _ fuel ih =>
    intro s hs
    cases s with
    | nil => cases fuel <;> rfl
    | cons c rest =>
      cases fuel with
      | zero => exact absurd hs (by simp)
      | succ f =>
        have hr : rest.length ≤ f := by
          simp only [List.length_cons] at hs
          omega
        show subAllF m (f + 1) (c :: rest) = subAllF m ((c :: rest).length) (c :: rest)
        simp only [List.length_cons, subAllF]
        cases hm : m (c :: rest) with
        | none =>
          simp only [ih f (by omega) rest hr, ih rest.length (by omega) rest (le_refl _)]
        | some pn =>
          obtain ⟨rep, n⟩ := pn
          have hd : (rest.drop (n - 1)).length ≤ rest.length := by
            simp only [List.length_drop]
            exact Nat.sub_le _ _
          simp only [ih f (by omega) _ (le_trans hd hr), ih rest.length (by omega) _ hd]

theorem subAll_eq (m : Matcher) (c : Char) (rest : List Char) :
    subAll m (c :: rest) =
      match m (c :: rest) with
      | some (rep, n) => rep ++ subAll m (rest.drop (n - 1))
      | none => c :: subAll m rest := by
  show subAllF m ((c :: rest).length) (c :: rest) = _
  simp only [List.length_cons, subAllF]
  cases hm : m (c :: rest) with
  | none => simp only [subAllF_eq_subAll m rest.length rest (le_refl _)]
  | some pn =>
    obtain ⟨rep, n⟩ := pn
    simp only [subAllF_eq_subAll m rest.length (rest.drop (n - 1))
      (by simp only [List.length_drop]; exact Nat.sub_le _ _)]

theorem firstMatchAt_sound (m : Matcher) :
    ∀ (s : List Char) (i : Nat) (rep : List Char) (n : Nat),
      firstMatchAt m s = some (i, rep, n) →
      m (s.drop i) = some (rep, n) ∧ i + 1 ≤ s.length := by
  intro s
  induction s with
  | nil => intro i rep n h; cases h
  | cons c rest ih =>
    intro i rep n h
    simp only [firstMatchAt] at h
    cases hm0 : m (c :: rest) with
    | some pn =>
      obtain ⟨rep0, n0⟩ := pn
      rw [hm0] at h
      simp only [Option.some.injEq, Prod.mk.injEq] at h
      obtain ⟨rfl, rfl, rfl⟩ := h
      exact ⟨by simpa using hm0, by simp⟩
    | none =>
      rw [hm0] at h
      rcases Option.map_eq_some'.mp h with ⟨⟨i0, rep0, n0⟩, h1, h2⟩
      simp only [Prod.mk.injEq] at h2
      obtain ⟨rfl, rfl, rfl⟩ := h2
      obtain ⟨hm1, hlen⟩ := ih i0 rep0 n0 h1
      refine ⟨by simpa using hm1, ?_⟩
      simp only [List.length_cons]
      omega

theorem subSpecF_eq_subSpec (m : Matcher)
    (hm : ∀ s rep n, m s = some (rep, n) → 1 ≤ n) :
    ∀ (fuel : Nat) (s : List Char), s.length ≤ fuel → subSpecF m fuel s = subSpec m s := by
  intro fuel
  induction fuel using Nat.strong_induction_on with
  | _ fuel ih =>
    intro s hs
    cases fuel with
    | zero =>
      have hnil : s = [] := List.length_eq_zero.mp (Nat.le_zero.mp hs)
      subst hnil
      rfl
    | succ f =>
      show subSpecF m (f + 1) s = subSpecF m s.length s
      cases s with
      | nil => rfl
      | cons c rest =>
        simp only [subSpecF, List.length_cons]
        cases hfm : firstMatchAt m (c :: rest) with
        | none => rfl
        | some x =>
          obtain ⟨i, rep, n⟩ := x
          obtain ⟨hmi, hlt⟩ := firstMatchAt_sound m _ i rep n hfm
          have hn : 1 ≤ n := hm _ _ _ hmi
          simp only [List.length_cons] at hs hlt
          have hlen : ((c :: rest).drop (i + n)).length ≤ f := by
            simp only [List.length_drop, List.length_cons]
            omega
          have hlen2 : ((c :: rest).drop (i + n)).length ≤ rest.length := by
            simp only [List.length_drop, List.length_cons]
            omega
          simp only [ih f (by omega) _ hlen, ih rest.length (by omega) _ hlen2]

theorem subSpec_eq (m : Matcher) (hm : ∀ s rep n, m s = some (rep, n) → 1 ≤ n)
    (c : Char) (rest : List Char) :
    subSpec m (c :: rest) =
      match firstMatchAt m (c :: rest) with
      | none => c :: rest
      | some (i, rep, n) =>
        (c :: rest).take i ++ rep ++ subSpec m ((c :: rest).drop (i + n)) := by
  show subSpecF m ((c :: rest).length) (c :: rest) = _
  simp only [List.length_cons, subSpecF]
  cases hfm : firstMatchAt m (c :: rest) with
  | none => rfl
  | some x =>
    obtain ⟨i, rep, n⟩ := x
    obtain ⟨hmi, hlt⟩ := firstMatchAt_sound m _ i rep n hfm
    have hn : 1 ≤ n := hm _ _ _ hmi
    simp only [List.length_cons] at hlt
    simp only [subSpecF_eq_subSpec m hm rest.length ((c :: rest).drop (i + n))
      (by simp only [List.length_drop, List.length_cons]; omega)]

theorem subAll_of_firstMatchAt_none (m : Matcher) :
    ∀ s : List Char, firstMatchAt m s = none → subAll m s = s := by
  intro s
  induction s with
  | nil => intro _; rfl
  | cons c rest ih =>
    intro h
    simp only [firstMatchAt] at h
    cases hm0 : m (c :: rest) with
    | some pn => rw [hm0] at h; cases h
    | none =>
      rw [hm0] at h
      simp only [Option.map_eq_none'] at h
      rw [subAll_eq m c rest, hm0]
      exact congrArg (c :: ·) (ih h)

theorem subAll_eq_subSpec (m : Matcher)
    (hm : ∀ s rep n, m s = some (rep, n) → 1 ≤ n) :
    ∀ s : List Char, subAll m s = subSpec m s := by
  suffices h : ∀ (k : Nat) (s : List Char), s.length ≤ k → subAll m s = subSpec m s by
    intro s; exact h s.length s (le_refl _)
  intro k
  induction k with
  | zero =>
    intro s hs
    have hnil : s = [] := List.length_eq_zero.mp (Nat.le_zero.mp hs)
    subst hnil
    rfl
  | succ k ih =>
    intro s hs
    cases s with
    | nil => rfl
    | cons c rest =>
      have hr : rest.length ≤ k := by simp only [List.length_cons] at hs; omega
      rw [subAll_eq m c rest, subSpec_eq m hm c rest]
      cases hm0 : m (c :: rest) with
      | some pn =>
        obtain ⟨rep, n⟩ := pn
        have hfm : firstMatchAt m (c :: rest) = some (0, rep, n) := by
          simp only [firstMatchAt, hm0]
        rw [hfm]
        have hn : 1 ≤ n := hm _ _ _ hm0
        obtain ⟨n, rfl⟩ : ∃ n', n = n' + 1 := ⟨n - 1, by omega⟩
        simp only [List.take_zero, List.nil_append, Nat.zero_add, List.drop_succ_cons,
          Nat.add_sub_cancel]
        exact congrArg (rep ++ ·)
          (ih _ (le_trans (by simp [List.length_drop] : (rest.drop n).length ≤ rest.length) hr))
      | none =>
        have hfm : firstMatchAt m (c :: rest) =
            (firstMatchAt m rest).map (fun x => (x.1 + 1, x.2.1, x.2.2)) := by
          simp only [firstMatchAt, hm0]
        rw [hfm]
        cases hfr : firstMatchAt m rest with
        | none =>
          simp only [Option.map_none']
          rw [subAll_of_firstMatchAt_none m rest hfr]
        | some x =>
          obtain ⟨i, rep, n1⟩ := x
          cases rest with
          | nil => cases hfr
          | cons d ds =>
            rw [ih (d :: ds) hr, subSpec_eq m hm d ds, hfr]
            simp only [Option.map_some', List.take_succ_cons, List.cons_append]
            rw [Nat.add_right_comm i 1 n1]
            simp only [List.drop_succ_cons]

/-! ## Strip and takeWhile facts -/

theorem drop_takeWhile_length (p : Char → Bool) (l : List Char) :
    l.drop (l.takeWhile p).length = l.dropWhile p := by
  induction l with
  | nil => rfl
  | cons c rest ih =>
    cases hc : p c with
    | true => simp [List.takeWhile_cons, List.dropWhile_cons, hc, ih]
    | false => simp [List.takeWhile_cons, List.dropWhile_cons, hc]

theorem dropWhile_head_false (p : Char → Bool) :
    ∀ (l : List Char) (c : Char) (t : List Char), l.dropWhile p = c :: t → p c = false := by
  intro l
  induction l with
  | nil => intro c t h; cases h
  | cons a l' ih =>
    intro c t h
    cases ha : p a with
    | true =>
      rw [List.dropWhile_cons, if_pos (by simp [ha])] at h
      exact ih c t h
    | false =>
      rw [List.dropWhile_cons, if_neg (by simp [ha])] at h
      injection h with h1 _
      subst h1
      exact ha

theorem dropWhile_eq_self_of_head (p : Char → Bool) (l : List Char)
    (h : ∀ c t, l = c :: t → p c = false) : l.dropWhile p = l := by
  cases l with
  | nil => rfl
  | cons c t => rw [List.dropWhile_cons, if_neg (by simp [h c t rfl])]

theorem strip_decomp (u : List Char) :
    u = (u.reverse.dropWhile pyWs).reverse ++ (u.reverse.takeWhile pyWs).reverse := by
  rw [← List.reverse_append, List.takeWhile_append_dropWhile, List.reverse_reverse]

/-- What `str.strip()` does, as the specification words it: the text splits as
whitespace, the stripped core, whitespace, and the core neither starts nor
ends with whitespace. -/
theorem stripBoth_spec (s : List Char) :
    ∃ pre post, s = pre ++ stripBoth s ++ post ∧ (∀ c ∈ pre, pyWs c = true) ∧
      (∀ c ∈ post, pyWs c = true) ∧
      (∀ c t, stripBoth s = c :: t → pyWs c = false) ∧
      (∀ c t, (stripBoth s).reverse = c :: t → pyWs c = false) := by
  refine ⟨s.takeWhile pyWs, ((s.dropWhile pyWs).reverse.takeWhile pyWs).reverse,
    ?_, ?_, ?_, ?_, ?_⟩
  · conv_lhs => rw [← List.takeWhile_append_dropWhile (p := pyWs) (l := s),
      strip_decomp (s.dropWhile pyWs)]
    rw [List.append_assoc]
    rfl
  · intro c hc; exact List.mem_takeWhile_imp hc
  · intro c hc
    rw [List.mem_reverse] at hc
    exact List.mem_takeWhile_imp hc
  · intro c t h
    have hu : s.dropWhile pyWs =
        stripBoth s ++ ((s.dropWhile pyWs).reverse.takeWhile pyWs).reverse :=
      strip_decomp (s.dropWhile pyWs)
    rw [h, List.cons_append] at hu
    exact dropWhile_head_false pyWs s c _ hu
  · intro c t h
    have hrev : (stripBoth s).reverse = (s.dropWhile pyWs).reverse.dropWhile pyWs := by
      simp [stripBoth]
    rw [hrev] at h
    exact dropWhile_head_false pyWs _ c t h

theorem stripBoth_idem (s : List Char) : stripBoth (stripBoth s) = stripBoth s := by
  obtain ⟨pre, post, _, _, _, hhead, hrhead⟩ := stripBoth_spec s
  show (((stripBoth s).dropWhile pyWs).reverse.dropWhile pyWs).reverse = stripBoth s
  rw [dropWhile_eq_self_of_head pyWs _ hhead, dropWhile_eq_self_of_head pyWs _ hrhead,
    List.reverse_reverse]

/-! ## Positivity of the matchers (every match consumes a character) -/

theorem colorOpenM_pos : ∀ (s rep : List Char) (n : Nat),
    colorOpenM s = some (rep, n) → 1 ≤ n := by
  intro s rep n h
  unfold colorOpenM at h
  split at h
  · dsimp only [] at h
    split at h
    · simp only [Option.some.injEq, Prod.mk.injEq] at h
      omega
    · cases h
  · cases h

theorem litM_pos (pat rep0 : List Char) : ∀ (s rep : List Char) (n : Nat),
    litM pat rep0 s = some (rep, n) → 1 ≤ n := by
  intro s rep n h
  unfold litM at h
  split at h
  · next hc =>
    simp only [Option.some.injEq, Prod.mk.injEq] at h
    have := List.length_pos.mpr hc.1
    omega
  · cases h

theorem codeM_pos : ∀ (s rep : List Char) (n : Nat), codeM s = some (rep, n) → 1 ≤ n := by
  intro s rep n h
  unfold codeM at h
  split at h
  · rcases Option.map_eq_some'.mp h with ⟨j, _, h2⟩
    simp only [Prod.mk.injEq] at h2
    omega
  · cases h

theorem imageM_pos : ∀ (s rep : List Char) (n : Nat), imageM s = some (rep, n) → 1 ≤ n := by
  intro s rep n h
  cases s with
  | nil => cases h
  | cons c rest =>
    simp only [imageM] at h
    split at h
    · rcases Option.map_eq_some'.mp h with ⟨j, _, h2⟩
      simp only [Prod.mk.injEq] at h2
      omega
    · cases h

theorem linkM_pos : ∀ (s rep : List Char) (n : Nat), linkM s = some (rep, n) → 1 ≤ n := by
  intro s rep n h
  cases s with
  | nil => cases h
  | cons c rest =>
    simp only [linkM] at h
    split at h
    · rcases Option.map_eq_some'.mp h with ⟨pq, _, h2⟩
      simp only [Prod.mk.injEq] at h2
      omega
    · cases h

theorem newlineM_pos : ∀ (s rep : List Char) (n : Nat), newlineM s = some (rep, n) → 1 ≤ n := by
  intro s rep n h
  cases s with
  | nil => cases h
  | cons c rest =>
    simp only [newlineM] at h
    split at h
    · simp only [Option.some.injEq, Prod.mk.injEq] at h
      omega
    · cases h

/-- The incremental scanner and the leftmost-replacement description agree on
every stage of the pipeline, hence on the whole cleanup. -/
theorem clean_text_refines_spec : ∀ s : String, _clean_text s = clean_text_spec s := by
  intro s
  unfold _clean_text clean_text_spec
  split
  · rfl
  · simp only [subAll_eq_subSpec colorOpenM colorOpenM_pos,
      subAll_eq_subSpec (litM colorClosePat []) (litM_pos colorClosePat []),
      subAll_eq_subSpec codeM codeM_pos, subAll_eq_subSpec imageM imageM_pos,
      subAll_eq_subSpec linkM linkM_pos, subAll_eq_subSpec newlineM newlineM_pos]

/-! ## Stages fire only on their trigger characters -/

theorem colorOpenM_none (c : Char) (rest : List Char) (h : c ≠ '{') :
    colorOpenM (c :: rest) = none := by
  unfold colorOpenM
  exact if_neg (by
    intro hEq
    have h7 : (c :: rest).take 7 = c :: rest.take 6 := rfl
    rw [h7] at hEq
    unfold colorOpenPat at hEq
    injection hEq with h1 _
    exact h h1)

theorem colorCloseM_none (c : Char) (rest : List Char) (h : c ≠ '{') :
    litM colorClosePat [] (c :: rest) = none := by
  unfold litM
  exact if_neg (by
    rintro ⟨-, hEq⟩
    have h7 : (c :: rest).take colorClosePat.length = c :: rest.take 6 := rfl
    rw [h7] at hEq
    unfold colorClosePat at hEq
    injection hEq with h1 _
    exact h h1)

theorem codeM_none (c : Char) (rest : List Char) (h : c ≠ '{') :
    codeM (c :: rest) = none := by
  unfold codeM
  exact if_neg (by
    intro hEq
    have h2 : (c :: rest).take 2 = c :: rest.take 1 := rfl
    rw [h2] at hEq
    injection hEq with h1 _
    exact h h1)

theorem imageM_none (c : Char) (rest : List Char) (h : c ≠ '!') :
    imageM (c :: rest) = none := by
  simp [imageM, h]

theorem linkM_none (c : Char) (rest : List Char) (h : c ≠ '[') :
    linkM (c :: rest) = none := by
  simp [linkM, h]

theorem subAll_id_of_trigger (m : Matcher) (trig : Char → Bool)
    (hmt : ∀ c rest, trig c = false → m (c :: rest) = none) :
    ∀ s : List Char, (∀ c ∈ s, trig c = false) → subAll m s = s := by
  intro s
  induction s with
  | nil => intro _; rfl
  | cons c rest ih =>
    intro hs
    rw [subAll_eq, hmt c rest (hs c (by simp))]
    exact congrArg (c :: ·) (ih (fun x hx => hs x (by simp [hx])))

/-! ## The newline-collapsing pass -/

theorem subAll_newline_head (d : Char) (t : List Char) :
    ∃ t2, subAll newlineM (d :: t) = d :: t2 := by
  rw [subAll_eq]
  by_cases hd : d = '\n'
  · subst hd
    simp only [newlineM, if_pos rfl]
    exact ⟨_, rfl⟩
  · simp only [newlineM, if_neg hd]
    exact ⟨_, rfl⟩

theorem subAll_newline_subset :
    ∀ (k : Nat) (s : List Char), s.length ≤ k → ∀ c ∈ subAll newlineM s, c ∈ s := by
  intro k
  induction k with
  | zero =>
    intro s hs
    have hnil : s = [] := List.length_eq_zero.mp (Nat.le_zero.mp hs)
    subst hnil
    intro c hc
    exact hc
  | succ k ih =>
    intro s hs c0 hc0
    cases s with
    | nil => exact hc0
    | cons c rest =>
      simp only [List.length_cons] at hs
      rw [subAll_eq] at hc0
      by_cases hcn : c = '\n'
      · subst hcn
        simp only [newlineM, if_pos rfl, Nat.add_sub_cancel] at hc0
        rcases List.mem_append.mp hc0 with hmem | hmem
        · simp only [List.mem_singleton] at hmem
          subst hmem
          exact List.mem_cons_self _ _
        · have hlen : (rest.drop (rest.takeWhile (fun x => x = '\n')).length).length ≤ k := by
            simp only [List.length_drop]
            omega
          exact List.mem_cons_of_mem _
            (List.drop_subset _ _ (ih _ hlen c0 hmem))
      · simp only [newlineM, if_neg hcn] at hc0
        rcases List.mem_cons.mp hc0 with hmem | hmem
        · subst hmem
          exact List.mem_cons_self _ _
        · exact List.mem_cons_of_mem _ (ih rest (by omega) c0 hmem)

theorem noAdjNL_cons (c : Char) (l : List Char) (hc : l.head? = some '\n' → c ≠ '\n')
    (hl : noAdjNL l = true) : noAdjNL (c :: l) = true := by
  cases l with
  | nil => rfl
  | cons d t =>
    simp only [noAdjNL, Bool.and_eq_true]
    refine ⟨?_, hl⟩
    by_cases hd : d = '\n'
    · have hcn := hc (by simp [hd])
      simp [hcn]
    · simp [hd]

theorem noAdjNL_tail (c : Char) (l : List Char) (h : noAdjNL (c :: l) = true) :
    noAdjNL l = true := by
  cases l with
  | nil => rfl
  | cons d t =>
    simp only [noAdjNL, Bool.and_eq_true] at h
    exact h.2

theorem noAdjNL_pair (c d : Char) (t : List Char) (h : noAdjNL (c :: d :: t) = true) :
    ¬(c = '\n' ∧ d = '\n') := by
  intro hcd
  simp [noAdjNL, hcd.1, hcd.2] at h

theorem noAdjNL_append_left (l t : List Char) (h : noAdjNL (l ++ t) = true) :
    noAdjNL l = true := by
  induction l with
  | nil => rfl
  | cons a l' ih =>
    cases l' with
    | nil => rfl
    | cons b l'' =>
      simp only [List.cons_append] at h
      simp only [noAdjNL, Bool.and_eq_true] at h ⊢
      exact ⟨h.1, ih (by simpa [List.cons_append] using h.2)⟩

theorem noAdjNL_append_right (l t : List Char) (h : noAdjNL (l ++ t) = true) :
    noAdjNL t = true := by
  induction l with
  | nil => exact h
  | cons a l' ih => exact ih (noAdjNL_tail a _ (by simpa using h))

theorem subAll_newline_noAdj :
    ∀ (k : Nat) (s : List Char), s.length ≤ k → noAdjNL (subAll newlineM s) = true := by
  intro k
  induction k with
  | zero =>
    intro s hs
    have hnil : s = [] := List.length_eq_zero.mp (Nat.le_zero.mp hs)
    subst hnil
    rfl
  | succ k ih =>
    intro s hs
    cases s with
    | nil => rfl
    | cons c rest =>
      simp only [List.length_cons] at hs
      rw [subAll_eq]
      by_cases hc : c = '\n'
      · subst hc
        show noAdjNL (['\n'] ++ subAll newlineM
          (rest.drop ((rest.takeWhile (fun x => x = '\n')).length + 1 - 1))) = true
        simp only [Nat.add_sub_cancel]
        have htd : rest.drop (rest.takeWhile (fun x => x = '\n')).length =
            rest.dropWhile (fun x => x = '\n') := drop_takeWhile_length _ rest
        rw [htd, List.singleton_append]
        cases hT : rest.dropWhile (fun x => x = '\n') with
        | nil => rfl
        | cons d t' =>
          have hd : decide (d = '\n') = false := dropWhile_head_false _ rest d t' hT
          have hdn : d ≠ '\n' := by simpa using hd
          obtain ⟨t2, ht2⟩ := subAll_newline_head d t'
          rw [ht2]
          apply noAdjNL_cons
          · intro hh
            simp only [List.head?_cons, Option.some.injEq] at hh
            exact absurd hh hdn
          · rw [← ht2]
            refine ih (d :: t') ?_
            have hsub := (List.dropWhile_sublist (fun x => decide (x = '\n')) (l := rest)).length_le
            rw [hT] at hsub
            simp only [List.length_cons] at hsub ⊢
            omega
      · simp only [newlineM, if_neg hc]
        apply noAdjNL_cons
        · intro _; exact hc
        · exact ih rest (by omega)

theorem subAll_newline_id (s : List Char) (h : noAdjNL s = true) :
    subAll newlineM s = s := by
  induction s with
  | nil => rfl
  | cons c rest ih =>
    rw [subAll_eq]
    by_cases hc : c = '\n'
    · subst hc
      simp only [newlineM, if_pos rfl]
      have hrw : rest.takeWhile (fun x => x = '\n') = [] := by
        cases rest with
        | nil => rfl
        | cons d t =>
          have hd := noAdjNL_pair '\n' d t h
          have hdn : d ≠ '\n' := fun hdd => hd ⟨rfl, hdd⟩
          simp [List.takeWhile_cons, hdn]
      rw [hrw]
      simp only [List.length_nil, Nat.zero_add, Nat.add_sub_cancel, List.drop_zero,
        List.singleton_append]
      exact congrArg _ (ih (noAdjNL_tail _ _ h))
    · simp only [newlineM, if_neg hc]
      exact congrArg _ (ih (noAdjNL_tail _ _ h))

/-! ## Claim C8 -/

theorem subAll_colorOpen_id (t : List Char) (ht : ∀ c ∈ t, c ≠ '{') :
    subAll colorOpenM t = t :=
  subAll_id_of_trigger colorOpenM (fun c => decide (c = '{'))
    (fun c r hc => colorOpenM_none c r (by simpa using hc)) t
    (fun c hc => by simpa using ht c hc)

theorem subAll_colorClose_id (t : List Char) (ht : ∀ c ∈ t, c ≠ '{') :
    subAll (litM colorClosePat []) t = t :=
  subAll_id_of_trigger (litM colorClosePat []) (fun c => decide (c = '{'))
    (fun c r hc => colorCloseM_none c r (by simpa using hc)) t
    (fun c hc => by simpa using ht c hc)

theorem subAll_code_id (t : List Char) (ht : ∀ c ∈ t, c ≠ '{') :
    subAll codeM t = t :=
  subAll_id_of_trigger codeM (fun c => decide (c = '{'))
    (fun c r hc => codeM_none c r (by simpa using hc)) t
    (fun c hc => by simpa using ht c hc)

theorem subAll_image_id (t : List Char) (ht : ∀ c ∈ t, c ≠ '!') :
    subAll imageM t = t :=
  subAll_id_of_trigger imageM (fun c => decide (c = '!'))
    (fun c r hc => imageM_none c r (by simpa using hc)) t
    (fun c hc => by simpa using ht c hc)

theorem subAll_link_id (t : List Char) (ht : ∀ c ∈ t, c ≠ '[') :
    subAll linkM t = t :=
  subAll_id_of_trigger linkM (fun c => decide (c = '['))
    (fun c r hc => linkM_none c r (by simpa using hc)) t
    (fun c hc => by simpa using ht c hc)

theorem stripBoth_subset (w : List Char) : ∀ c ∈ stripBoth w, c ∈ w := by
  intro c hc
  unfold stripBoth at hc
  rw [List.mem_reverse] at hc
  have hc2 := (List.dropWhile_sublist _).subset hc
  rw [List.mem_reverse] at hc2
  exact (List.dropWhile_sublist _).subset hc2

/-- C8 as stated is false: cleaning can create new markup.  In `[!a|b]!` the
link substitution produces `!a!`, which a second pass removes as an image. -/
theorem clean_text_not_idempotent :
    _clean_text (_clean_text "[!a|b]!") ≠ _clean_text "[!a|b]!" := by decide

/-- C8 (amended, restricted to inputs that cannot interact with the markup
patterns): `_clean_text` is idempotent on every string containing none of the
trigger characters `{`, `[`, `!`; in general it is not idempotent, because a
substitution can create new markup for a later (or second-pass) rule. -/
theorem clean_text_idem_no_markup :
    ∀ s : String, (∀ c ∈ s.data, c ≠ '{' ∧ c ≠ '[' ∧ c ≠ '!') →
      _clean_text (_clean_text s) = _clean_text s := by
  intro s hs
  have hstages : ∀ t : List Char, (∀ c ∈ t, c ≠ '{' ∧ c ≠ '[' ∧ c ≠ '!') →
      subAll linkM (subAll imageM (subAll codeM (subAll (litM colorClosePat [])
        (subAll colorOpenM t)))) = t := by
    intro t ht
    rw [subAll_colorOpen_id t (fun c hc => (ht c hc).1),
      subAll_colorClose_id t (fun c hc => (ht c hc).1),
      subAll_code_id t (fun c hc => (ht c hc).1),
      subAll_image_id t (fun c hc => (ht c hc).2.2),
      subAll_link_id t (fun c hc => (ht c hc).2.1)]
  by_cases h0 : s = ""
  · subst h0; rfl
  · have hclean : _clean_text s = String.mk (stripBoth (subAll newlineM s.data)) := by
      unfold _clean_text
      rw [if_neg h0]
      dsimp only []
      rw [hstages s.data hs]
    have hvadj : noAdjNL (subAll newlineM s.data) = true :=
      subAll_newline_noAdj s.data.length s.data (le_refl _)
    set v := subAll newlineM s.data with hv
    set u := stripBoth v with hu2
    have humem : ∀ c ∈ u, c ∈ s.data := fun c hc =>
      subAll_newline_subset s.data.length s.data (le_refl _) c (stripBoth_subset v c hc)
    have hufree : ∀ c ∈ u, c ≠ '{' ∧ c ≠ '[' ∧ c ≠ '!' := fun c hc => hs c (humem c hc)
    have huadj : noAdjNL u = true := by
      have hsfx : noAdjNL (v.dropWhile pyWs) = true := by
        have hdecomp : v = v.takeWhile pyWs ++ v.dropWhile pyWs :=
          (List.takeWhile_append_dropWhile _ _).symm
        exact noAdjNL_append_right _ _ (hdecomp ▸ hvadj)
      have hdecomp2 : v.dropWhile pyWs =
          stripBoth v ++ ((v.dropWhile pyWs).reverse.takeWhile pyWs).reverse :=
        strip_decomp _
      exact noAdjNL_append_left _ _ (hdecomp2 ▸ hsfx)
    rw [hclean]
    by_cases hu0 : u = []
    · rw [hu0]
      rfl
    · have hne : String.mk u ≠ "" := by
        intro hEq
        apply hu0
        have hdata := congrArg String.data hEq
        simpa using hdata
      unfold _clean_text
      rw [if_neg hne]
      dsimp only []
      rw [hstages u hufree, subAll_newline_id u huadj, hu2, stripBoth_idem v]

theorem clean_text_idem_no_markup_witness :
    _clean_text (_clean_text " a\n\n b ") = _clean_text " a\n\n b " :=
  clean_text_idem_no_markup " a\n\n b " (by decide)

/-! ## Claim C1: declarative characterizations of the matchers -/

theorem take_takeWhile_length (p : Char → Bool) (l : List Char) :
    l.take (l.takeWhile p).length = l.takeWhile p := by
  induction l with
  | nil => rfl
  | cons c rest ih =>
    cases hc : p c with
    | true => simp [List.takeWhile_cons, hc, ih]
    | false => simp [List.takeWhile_cons, hc]

theorem takeWhile_all (p : Char → Bool) :
    ∀ l : List Char, (∀ c ∈ l, p c = true) → l.takeWhile p = l := by
  intro l
  induction l with
  | nil => intro _; rfl
  | cons c rest ih =>
    intro h
    simp [List.takeWhile_cons, h c (by simp), ih (fun x hx => h x (by simp [hx]))]

theorem takeWhile_append_stop (p : Char → Bool) :
    ∀ (run : List Char), (∀ c ∈ run, p c = true) → ∀ (c : Char), p c = false →
      ∀ tail : List Char, (run ++ c :: tail).takeWhile p = run := by
  intro run
  induction run with
  | nil =>
    intro _ c hc tail
    rw [List.nil_append, List.takeWhile_cons, if_neg (by simp [hc])]
  | cons a run' ih =>
    intro hall c hc tail
    have ha : p a = true := hall a (by simp)
    rw [List.cons_append, List.takeWhile_cons, if_pos (by simp [ha]),
      ih (fun x hx => hall x (by simp [hx])) c hc tail]

theorem scanFor_iff (good bad : Char → Bool) :
    ∀ (l : List Char) (j : Nat),
      scanFor good bad l = some j ↔
        ∃ mid c rest, l = mid ++ c :: rest ∧ good c = true ∧ j = mid.length ∧
          ∀ x ∈ mid, good x = false ∧ bad x = false := by
  intro l
  induction l with
  | nil =>
    intro j
    constructor
    · intro h; cases h
    · rintro ⟨mid, c, rest, h, -⟩
      cases mid <;> simp at h
  | cons a rest0 ih =>
    intro j
    simp only [scanFor]
    by_cases hg : good a = true
    · rw [if_pos hg]
      constructor
      · intro h
        injection h with h0
        exact ⟨[], a, rest0, rfl, hg, h0.symm, by simp⟩
      · rintro ⟨mid, c, rest, heq, hgc, rfl, hmid⟩
        cases mid with
        | nil =>
          injection heq with h1 h2
          rfl
        | cons m ms =>
          injection heq with h1 h2
          subst h1
          exact absurd hg (by simp [(hmid a (by simp)).1])
    · rw [if_neg hg]
      have hgf : good a = false := by
        cases hga : good a
        · rfl
        · exact absurd hga hg
      by_cases hb : bad a = true
      · rw [if_pos hb]
        constructor
        · intro h; cases h
        · rintro ⟨mid, c, rest, heq, hgc, rfl, hmid⟩
          cases mid with
          | nil =>
            injection heq with h1 h2
            subst h1
            exact absurd hgc hg
          | cons m ms =>
            injection heq with h1 h2
            subst h1
            have hba := (hmid a (by simp)).2
            rw [hba] at hb
            cases hb
      · rw [if_neg hb]
        have hbf : bad a = false := by
          cases hba : bad a
          · rfl
          · exact absurd hba hb
        constructor
        · intro h
          rcases Option.map_eq_some'.mp h with ⟨j0, hj0, rfl⟩
          rcases (ih j0).mp hj0 with ⟨mid, c, rest, heq, hgc, rfl, hmid⟩
          refine ⟨a :: mid, c, rest, by rw [heq]; rfl, hgc, rfl, ?_⟩
          intro x hx
          rcases List.mem_cons.mp hx with rfl | hx
          · exact ⟨hgf, hbf⟩
          · exact hmid x hx
        · rintro ⟨mid, c, rest, heq, hgc, rfl, hmid⟩
          cases mid with
          | nil =>
            injection heq with h1 h2
            subst h1
            exact absurd hgc hg
          | cons m ms =>
            injection heq with h1 h2
            subst h1
            rw [(ih ms.length).mpr ⟨ms, c, rest, h2, hgc, rfl,
              fun x hx => hmid x (by simp [hx])⟩]
            rfl

theorem findClose_iff (l : List Char) (q : Nat) :
    findClose l = some q ↔
      ∃ mid rest, l = mid ++ ']' :: rest ∧ ']' ∉ mid ∧ q = mid.length := by
  unfold findClose
  rw [scanFor_iff]
  constructor
  · rintro ⟨mid, c, rest, heq, hgc, rfl, hmid⟩
    have hc : c = ']' := by simpa using hgc
    subst hc
    exact ⟨mid, rest, heq, fun hmem => absurd (hmid _ hmem).1 (by simp), rfl⟩
  · rintro ⟨mid, rest, heq, hnotin, rfl⟩
    exact ⟨mid, ']', rest, heq, by simp, rfl,
      fun x hx => ⟨decide_eq_false fun hxx => hnotin (hxx ▸ hx), rfl⟩⟩

theorem linkAfterPipe_iff (l : List Char) (q : Nat) :
    linkAfterPipe l = some q ↔
      ∃ tgt rest, l = tgt ++ ']' :: rest ∧ ']' ∉ tgt ∧ tgt ≠ [] ∧ q = tgt.length := by
  unfold linkAfterPipe
  constructor
  · intro h
    cases hfc : findClose l with
    | none => rw [hfc] at h; cases h
    | some q1 =>
      rw [hfc] at h
      have h' : (if 1 ≤ q1 then some q1 else none) = some q := h
      by_cases h1 : 1 ≤ q1
      · rw [if_pos h1] at h'
        injection h' with h0
        subst h0
        rcases (findClose_iff l q1).mp hfc with ⟨mid, rest, heq, hni, hq⟩
        subst hq
        refine ⟨mid, rest, heq, hni, ?_, rfl⟩
        rintro rfl
        simp at h1
      · rw [if_neg h1] at h'
        cases h'
  · rintro ⟨tgt, rest, heq, hni, hne, rfl⟩
    rw [(findClose_iff l tgt.length).mpr ⟨tgt, rest, heq, hni, rfl⟩]
    show (if 1 ≤ tgt.length then some tgt.length else none) = some tgt.length
    have hlp : 1 ≤ tgt.length := List.length_pos.mpr hne
    rw [if_pos hlp]

theorem colorOpenM_iff (s rep : List Char) (n : Nat) :
    colorOpenM s = some (rep, n) ↔
      ∃ run rest, s = colorOpenPat ++ (run ++ '}' :: rest) ∧ run ≠ [] ∧ '}' ∉ run ∧
        rep = [] ∧ n = run.length + 8 := by
  constructor
  · intro h
    unfold colorOpenM at h
    split at h
    · next h7 =>
      dsimp only [] at h
      split at h
      · next hrun =>
        simp only [Option.some.injEq, Prod.mk.injEq] at h
        obtain ⟨hrep, hn⟩ := h
        obtain ⟨hne, hhead⟩ := hrun
        cases hD : (s.drop 7).drop ((s.drop 7).takeWhile (fun c => c ≠ '}')).length with
        | nil => rw [hD] at hhead; cases hhead
        | cons x tail =>
          rw [hD] at hhead
          simp only [List.head?_cons, Option.some.injEq] at hhead
          subst hhead
          refine ⟨(s.drop 7).takeWhile (fun c => c ≠ '}'), tail, ?_, hne, ?_,
            hrep.symm, hn.symm⟩
          · conv_lhs => rw [← List.take_append_drop 7 s]
            rw [h7]
            congr 1
            conv_lhs => rw [← List.take_append_drop
              ((s.drop 7).takeWhile (fun c => c ≠ '}')).length (s.drop 7)]
            rw [hD, take_takeWhile_length]
          · intro hmem
            have hprop := List.mem_takeWhile_imp hmem
            simp at hprop
      · cases h
    · cases h
  · rintro ⟨run, rest, rfl, hne, hnotin, rfl, rfl⟩
    unfold colorOpenM
    have hlen : colorOpenPat.length = 7 := rfl
    have htake : (colorOpenPat ++ (run ++ '}' :: rest)).take 7 = colorOpenPat := by
      rw [← hlen]
      exact List.take_left _ _
    have hdrop : (colorOpenPat ++ (run ++ '}' :: rest)).drop 7 = run ++ '}' :: rest := by
      rw [← hlen]
      exact List.drop_left _ _
    rw [if_pos htake]
    dsimp only []
    rw [hdrop, takeWhile_append_stop (fun c => decide (c ≠ '}')) run
      (fun c hc => decide_eq_true (fun hcc => hnotin (hcc ▸ hc) : c ≠ '}')) '}' (by simp) rest]
    rw [if_pos ⟨hne, by rw [List.drop_left]; rfl⟩]

theorem litM_iff (pat rep0 : List Char) (hpat : pat ≠ []) (s r : List Char) (n : Nat) :
    litM pat rep0 s = some (r, n) ↔ ∃ rest, s = pat ++ rest ∧ r = rep0 ∧ n = pat.length := by
  unfold litM
  constructor
  · intro h
    split at h
    · next hc =>
      simp only [Option.some.injEq, Prod.mk.injEq] at h
      refine ⟨s.drop pat.length, ?_, h.1.symm, h.2.symm⟩
      conv_lhs => rw [← List.take_append_drop pat.length s]
      rw [hc.2]
    · cases h
  · rintro ⟨rest, rfl, rfl, rfl⟩
    rw [if_pos ⟨hpat, List.take_left _ _⟩]

theorem findDD_iff :
    ∀ (l : List Char) (j : Nat),
      findDD l = some j ↔ ∃ pre post, l = pre ++ '}' :: '}' :: post ∧ j = pre.length ∧
        noDD (pre ++ ['}']) = true := by
  intro l
  induction l with
  | nil =>
    intro j
    constructor
    · intro h; cases h
    · rintro ⟨pre, post, h, -, -⟩
      cases pre <;> simp at h
  | cons c rest ih =>
    intro j
    simp only [findDD]
    by_cases hdd : c = '}' ∧ rest.head? = some '}'
    · rw [if_pos hdd]
      obtain ⟨rfl, hh⟩ := hdd
      cases rest with
      | nil => cases hh
      | cons d rest' =>
        simp only [List.head?_cons, Option.some.injEq] at hh
        subst hh
        constructor
        · intro h
          injection h with h0
          exact ⟨[], rest', rfl, h0.symm, rfl⟩
        · rintro ⟨pre, post, heq, rfl, hnd⟩
          cases pre with
          | nil => rfl
          | cons p pre' =>
            injection heq with h1 h2
            subst h1
            cases pre' with
            | nil => simp [noDD] at hnd
            | cons q pre'' =>
              injection h2 with h3 _
              subst h3
              simp [noDD] at hnd
    · rw [if_neg hdd]
      constructor
      · intro h
        rcases Option.map_eq_some'.mp h with ⟨j0, hj0, rfl⟩
        rcases (ih j0).mp hj0 with ⟨pre, post, heq, rfl, hnd⟩
        refine ⟨c :: pre, post, by rw [heq]; rfl, rfl, ?_⟩
        cases pre with
        | nil =>
          have hc : c ≠ '}' := by
            intro hcc
            exact hdd ⟨hcc, by rw [heq]; rfl⟩
          simp [noDD, hc]
        | cons p pre' =>
          have hcp : ¬(c = '}' ∧ p = '}') := by
            rintro ⟨rfl, rfl⟩
            exact hdd ⟨rfl, by rw [heq]; rfl⟩
          simp only [List.cons_append, noDD, Bool.and_eq_true]
          refine ⟨?_, by simpa [List.cons_append] using hnd⟩
          by_cases hcc : c = '}'
          · have hp : p ≠ '}' := fun hpp => hcp ⟨hcc, hpp⟩
            simp [hp]
          · simp [hcc]
      · rintro ⟨pre, post, heq, rfl, hnd⟩
        cases pre with
        | nil =>
          injection heq with h1 h2
          exact absurd ⟨h1, by rw [h2]; rfl⟩ hdd
        | cons p pre' =>
          injection heq with h1 h2
          subst h1
          have hnd' : noDD (pre' ++ ['}']) = true := by
            cases pre' with
            | nil => rfl
            | cons q pre'' =>
              simp only [List.cons_append, noDD, Bool.and_eq_true] at hnd
              exact hnd.2
          rw [(ih pre'.length).mpr ⟨pre', post, h2, rfl, hnd'⟩]
          rfl

theorem codeM_iff (s rep : List Char) (n : Nat) :
    codeM s = some (rep, n) ↔
      ∃ body rest, s = '{' :: '{' :: (body ++ '}' :: '}' :: rest) ∧
        noDD (body ++ ['}']) = true ∧ rep = [] ∧ n = body.length + 4 := by
  unfold codeM
  constructor
  · intro h
    split at h
    · next h2 =>
      rcases Option.map_eq_some'.mp h with ⟨j, hj, hpair⟩
      simp only [Prod.mk.injEq] at hpair
      obtain ⟨hrep, hn⟩ := hpair
      rcases (findDD_iff (s.drop 2) j).mp hj with ⟨pre, post, heq, rfl, hnd⟩
      refine ⟨pre, post, ?_, hnd, hrep.symm, hn.symm⟩
      conv_lhs => rw [← List.take_append_drop 2 s]
      rw [h2, heq]
      rfl
    · cases h
  · rintro ⟨body, rest, rfl, hnd, rfl, rfl⟩
    rw [if_pos (show List.take 2 ('{' :: '{' :: (body ++ '}' :: '}' :: rest)) = ['{', '{']
      from rfl)]
    rw [show ('{' :: '{' :: (body ++ '}' :: '}' :: rest)).drop 2 = body ++ '}' :: '}' :: rest
      from rfl]
    rw [(findDD_iff _ body.length).mpr ⟨body, rest, rfl, rfl, hnd⟩]
    rfl

theorem imageM_iff (s rep : List Char) (n : Nat) :
    imageM s = some (rep, n) ↔
      ∃ mid rest, s = '!' :: (mid ++ '!' :: rest) ∧ '!' ∉ mid ∧ ']' ∉ mid ∧
        rep = [] ∧ n = mid.length + 2 := by
  constructor
  · intro h
    cases s with
    | nil => cases h
    | cons c rest0 =>
      simp only [imageM] at h
      split at h
      · next hc =>
        subst hc
        rcases Option.map_eq_some'.mp h with ⟨j, hj, hpair⟩
        simp only [Prod.mk.injEq] at hpair
        obtain ⟨hrep, hn⟩ := hpair
        rcases (scanFor_iff _ _ rest0 j).mp hj with ⟨mid, c2, rest, heq, hgc, rfl, hmid⟩
        have hc2 : c2 = '!' := by simpa using hgc
        subst hc2
        refine ⟨mid, rest, by rw [heq], ?_, ?_, hrep.symm, hn.symm⟩
        · intro hmem
          have hx := (hmid _ hmem).1
          simp at hx
        · intro hmem
          have hx := (hmid _ hmem).2
          simp at hx
      · cases h
  · rintro ⟨mid, rest, rfl, hni, hnb, rfl, rfl⟩
    simp only [imageM, if_pos rfl]
    rw [(scanFor_iff (fun x => x = '!') (fun x => x = ']') _ mid.length).mpr
      ⟨mid, '!', rest, rfl, by simp, rfl, fun x hx =>
        ⟨decide_eq_false fun hxx => hni (hxx ▸ hx),
         decide_eq_false fun hxx => hnb (hxx ▸ hx)⟩⟩]
    rfl

theorem newlineM_iff (s rep : List Char) (n : Nat) :
    newlineM s = some (rep, n) ↔
      ∃ run rest, s = run ++ rest ∧ run ≠ [] ∧ (∀ c ∈ run, c = '\n') ∧
        (∀ c t, rest = c :: t → c ≠ '\n') ∧ rep = ['\n'] ∧ n = run.length := by
  constructor
  · intro h
    cases s with
    | nil => cases h
    | cons c rest0 =>
      simp only [newlineM] at h
      split at h
      · next hc =>
        subst hc
        simp only [Option.some.injEq, Prod.mk.injEq] at h
        obtain ⟨hrep, hn⟩ := h
        refine ⟨'\n' :: rest0.takeWhile (fun x => x = '\n'),
          rest0.dropWhile (fun x => x = '\n'), ?_, by simp, ?_, ?_, hrep.symm, ?_⟩
        · simp only [List.cons_append, List.takeWhile_append_dropWhile]
        · intro c hc
          rcases List.mem_cons.mp hc with rfl | hc
          · rfl
          · simpa using List.mem_takeWhile_imp hc
        · intro c t hct
          have hx := dropWhile_head_false (fun x => decide (x = '\n')) rest0 c t hct
          simpa using hx
        · simp only [List.length_cons]
          omega
      · cases h
  · rintro ⟨run, rest, rfl, hne, hall, hstop, rfl, rfl⟩
    cases run with
    | nil => exact absurd rfl hne
    | cons r run' =>
      have hr : r = '\n' := hall r (by simp)
      subst hr
      simp only [List.cons_append]
      show some (['\n'], ((run' ++ rest).takeWhile (fun x => x = '\n')).length + 1) =
        some (['\n'], ('\n' :: run').length)
      have htw : (run' ++ rest).takeWhile (fun x => x = '\n') = run' := by
        cases rest with
        | nil =>
          rw [List.append_nil]
          exact takeWhile_all _ run'
            (fun c hc => decide_eq_true (hall c (by simp [hc])))
        | cons x t =>
          exact takeWhile_append_stop (fun c => decide (c = '\n')) run'
            (fun c hc => decide_eq_true (hall c (by simp [hc]))) x
            (decide_eq_false (hstop x t rfl)) t
      rw [htw]
      rfl

theorem linkScan_some :
    ∀ (l : List Char) (p q : Nat), linkScan l = some (p, q) →
      ∃ disp tgt rest, l = disp ++ '|' :: (tgt ++ ']' :: rest) ∧ '\n' ∉ disp ∧
        tgt ≠ [] ∧ ']' ∉ tgt ∧ p = disp.length ∧ q = tgt.length ∧
        ∀ disp2 tgt2 rest2, l = disp2 ++ '|' :: (tgt2 ++ ']' :: rest2) → '\n' ∉ disp2 →
          tgt2 ≠ [] → ']' ∉ tgt2 → disp.length ≤ disp2.length := by
  intro l
  induction l with
  | nil => intro p q h; cases h
  | cons c rest0 ih =>
    intro p q h
    simp only [linkScan] at h
    by_cases hnl : c = '\n'
    · rw [if_pos hnl] at h; cases h
    · rw [if_neg hnl] at h
      by_cases hp : c = '|'
      · rw [if_pos hp] at h
        cases hap : linkAfterPipe rest0 with
        | some q0 =>
          rw [hap] at h
          simp only [Option.some.injEq, Prod.mk.injEq] at h
          obtain ⟨rfl, rfl⟩ := h
          rcases (linkAfterPipe_iff rest0 q0).mp hap with ⟨tgt, rest, heq, hni, hne, hq⟩
          subst hp
          refine ⟨[], tgt, rest, by rw [heq]; rfl, by simp, hne, hni, rfl, hq, ?_⟩
          intro disp2 _ _ _ _ _ _
          exact Nat.zero_le _
        | none =>
          rw [hap] at h
          rcases Option.map_eq_some'.mp h with ⟨⟨p0, q0⟩, h1, h2⟩
          simp only [Prod.mk.injEq] at h2
          obtain ⟨rfl, rfl⟩ := h2
          rcases ih p0 q0 h1 with ⟨d, t, r, heq, hdnl, htne, htnb, rfl, rfl, hmin⟩
          subst hp
          refine ⟨'|' :: d, t, r, by rw [heq]; rfl, ?_, htne, htnb, by simp, rfl, ?_⟩
          · intro hmem
            rcases List.mem_cons.mp hmem with h3 | h3
            · exact absurd h3 (by decide)
            · exact hdnl h3
          · intro disp2 tgt2 rest2 heq2 h2nl h2ne h2nb
            cases disp2 with
            | nil =>
              injection heq2 with h3 h4
              have hsome : linkAfterPipe rest0 = some tgt2.length :=
                (linkAfterPipe_iff rest0 tgt2.length).mpr ⟨tgt2, rest2, h4, h2nb, h2ne, rfl⟩
              rw [hap] at hsome
              cases hsome
            | cons c2 d2 =>
              injection heq2 with h3 h4
              have h5 := hmin d2 tgt2 rest2 h4 (fun hm => h2nl (by simp [hm])) h2ne h2nb
              simp only [List.length_cons]
              omega
      · rw [if_neg hp] at h
        rcases Option.map_eq_some'.mp h with ⟨⟨p0, q0⟩, h1, h2⟩
        simp only [Prod.mk.injEq] at h2
        obtain ⟨rfl, rfl⟩ := h2
        rcases ih p0 q0 h1 with ⟨d, t, r, heq, hdnl, htne, htnb, rfl, rfl, hmin⟩
        refine ⟨c :: d, t, r, by rw [heq]; rfl, ?_, htne, htnb, by simp, rfl, ?_⟩
        · intro hmem
          rcases List.mem_cons.mp hmem with h3 | h3
          · exact hnl h3.symm
          · exact hdnl h3
        · intro disp2 tgt2 rest2 heq2 h2nl h2ne h2nb
          cases disp2 with
          | nil =>
            injection heq2 with h3 h4
            exact absurd h3 hp
          | cons c2 d2 =>
            injection heq2 with h3 h4
            have h5 := hmin d2 tgt2 rest2 h4 (fun hm => h2nl (by simp [hm])) h2ne h2nb
            simp only [List.length_cons]
            omega

theorem linkScan_cons (c : Char) (rest : List Char) :
    linkScan (c :: rest) =
      if c = '\n' then none
      else if c = '|' then
        match linkAfterPipe rest with
        | some q => some (0, q)
        | none => (linkScan rest).map (fun pq => (pq.1 + 1, pq.2))
      else (linkScan rest).map (fun pq => (pq.1 + 1, pq.2)) := rfl

theorem linkScan_complete :
    ∀ (disp l tgt rest : List Char),
      l = disp ++ '|' :: (tgt ++ ']' :: rest) → '\n' ∉ disp → tgt ≠ [] → ']' ∉ tgt →
      (∀ disp2 tgt2 rest2, l = disp2 ++ '|' :: (tgt2 ++ ']' :: rest2) → '\n' ∉ disp2 →
        tgt2 ≠ [] → ']' ∉ tgt2 → disp.length ≤ disp2.length) →
      linkScan l = some (disp.length, tgt.length) := by
  intro disp
  induction disp with
  | nil =>
    intro l tgt rest heq _ hne hnb _
    subst heq
    rw [List.nil_append, linkScan_cons]
    rw [if_neg (by decide), if_pos rfl]
    rw [(linkAfterPipe_iff (tgt ++ ']' :: rest) tgt.length).mpr ⟨tgt, rest, rfl, hnb, hne, rfl⟩]
    rfl
  | cons c d ih =>
    intro l tgt rest heq hdnl hne hnb hmin
    subst heq
    have hcnl : c ≠ '\n' := fun hcc => hdnl (by simp [hcc])
    rw [List.cons_append, linkScan_cons, if_neg hcnl]
    have hmin' : ∀ disp2 tgt2 rest2,
        d ++ '|' :: (tgt ++ ']' :: rest) = disp2 ++ '|' :: (tgt2 ++ ']' :: rest2) →
        '\n' ∉ disp2 → tgt2 ≠ [] → ']' ∉ tgt2 → d.length ≤ disp2.length := by
      intro disp2 tgt2 rest2 heq2 h2nl h2ne h2nb
      have h6 := hmin (c :: disp2) tgt2 rest2 (by rw [List.cons_append, heq2]; rfl) ?_ h2ne h2nb
      · simpa using h6
      · intro hm
        rcases List.mem_cons.mp hm with h3 | h3
        · exact hcnl h3.symm
        · exact h2nl h3
    have hscan := ih (d ++ '|' :: (tgt ++ ']' :: rest)) tgt rest rfl
      (fun hm => hdnl (by simp [hm])) hne hnb hmin'
    by_cases hp : c = '|'
    · rw [if_pos hp]
      have hap : linkAfterPipe (d ++ '|' :: (tgt ++ ']' :: rest)) = none := by
        cases happ : linkAfterPipe (d ++ '|' :: (tgt ++ ']' :: rest)) with
        | none => rfl
        | some q0 =>
          rcases (linkAfterPipe_iff _ q0).mp happ with ⟨tgt2, rest2, heq2, h2nb, h2ne, rfl⟩
          have h7 := hmin [] tgt2 rest2
            (by rw [hp, List.cons_append, heq2, List.nil_append]) (by simp) h2ne h2nb
          simp at h7
      rw [hap, hscan]
      rfl
    · rw [if_neg hp]
      rw [hscan]
      rfl

theorem linkM_iff (s r : List Char) (n : Nat) :
    linkM s = some (r, n) ↔
      ∃ disp tgt rest, s = '[' :: (disp ++ '|' :: (tgt ++ ']' :: rest)) ∧ '\n' ∉ disp ∧
        tgt ≠ [] ∧ ']' ∉ tgt ∧ r = disp ∧ n = disp.length + tgt.length + 3 ∧
        ∀ disp2 tgt2 rest2,
          disp ++ '|' :: (tgt ++ ']' :: rest) = disp2 ++ '|' :: (tgt2 ++ ']' :: rest2) →
          '\n' ∉ disp2 → tgt2 ≠ [] → ']' ∉ tgt2 → disp.length ≤ disp2.length := by
  constructor
  · intro h
    cases s with
    | nil => cases h
    | cons c rest0 =>
      simp only [linkM] at h
      split at h
      · next hc =>
        subst hc
        rcases Option.map_eq_some'.mp h with ⟨⟨p0, q0⟩, h1, h2⟩
        simp only [Prod.mk.injEq] at h2
        obtain ⟨hr, hn⟩ := h2
        rcases linkScan_some rest0 p0 q0 h1 with ⟨d, t, rr, heq, hdnl, htne, htnb, rfl, rfl, hmin⟩
        refine ⟨d, t, rr, by rw [heq], hdnl, htne, htnb, ?_, by omega, ?_⟩
        · rw [← hr, heq]
          exact List.take_left _ _
        · intro disp2 tgt2 rest2 heq2 h2nl h2ne h2nb
          exact hmin disp2 tgt2 rest2 (heq.trans heq2) h2nl h2ne h2nb
      · cases h
  · rintro ⟨disp, tgt, rest, rfl, hdnl, htne, htnb, rfl, rfl, hmin⟩
    simp only [linkM, if_pos rfl]
    rw [linkScan_complete r _ tgt rest rfl hdnl htne htnb hmin]
    simp only [Option.map_some', List.take_left]
    exact if_pos trivial

/-! ## Claim C1 -/

/-- C1: `_clean_text` applies exactly the specified cleanup, in order. The
implementation pipeline (`_clean_text`, a left-to-right scanner per rule)
agrees with the specification-side pipeline (`clean_text_spec`, "repeatedly
replace the leftmost match" per rule) on every input, the empty string maps
to the empty string, and the six substitution rules match precisely the
described shapes: `colorOpenM` removes each `{color:...}` opening marker
(maximal nonempty non-`}` run), `litM colorClosePat []` removes each literal
`{color}` closing marker, `codeM` removes each `{{...}}` code block (matching
across newlines, non-greedy: no earlier `}}` inside), `imageM` removes each
image reference `!...!` (non-greedy, `.` not matching `]` by the pattern
`[^\]]*?`), `linkM` replaces each link `[display|target]` by its display text
(non-greedy display, target nonempty without `]`), `newlineM` collapses each
maximal nonempty newline run to a single newline, and finally `stripBoth`
removes exactly the leading and trailing Python whitespace. -/
theorem clean_text_pipeline :
    (∀ s : String, _clean_text s = clean_text_spec s) ∧
    _clean_text "" = "" ∧
    (∀ s rep n, colorOpenM s = some (rep, n) ↔
      ∃ run rest, s = colorOpenPat ++ (run ++ '}' :: rest) ∧ run ≠ [] ∧ '}' ∉ run ∧
        rep = [] ∧ n = run.length + 8) ∧
    (∀ s r n, litM colorClosePat [] s = some (r, n) ↔
      ∃ rest, s = colorClosePat ++ rest ∧ r = [] ∧ n = colorClosePat.length) ∧
    (∀ s rep n, codeM s = some (rep, n) ↔
      ∃ body rest, s = '{' :: '{' :: (body ++ '}' :: '}' :: rest) ∧
        noDD (body ++ ['}']) = true ∧ rep = [] ∧ n = body.length + 4) ∧
    (∀ s rep n, imageM s = some (rep, n) ↔
      ∃ mid rest, s = '!' :: (mid ++ '!' :: rest) ∧ '!' ∉ mid ∧ ']' ∉ mid ∧
        rep = [] ∧ n = mid.length + 2) ∧
    (∀ s r n, linkM s = some (r, n) ↔
      ∃ disp tgt rest, s = '[' :: (disp ++ '|' :: (tgt ++ ']' :: rest)) ∧ '\n' ∉ disp ∧
        tgt ≠ [] ∧ ']' ∉ tgt ∧ r = disp ∧ n = disp.length + tgt.length + 3 ∧
        ∀ disp2 tgt2 rest2,
          disp ++ '|' :: (tgt ++ ']' :: rest) = disp2 ++ '|' :: (tgt2 ++ ']' :: rest2) →
          '\n' ∉ disp2 → tgt2 ≠ [] → ']' ∉ tgt2 → disp.length ≤ disp2.length) ∧
    (∀ s rep n, newlineM s = some (rep, n) ↔
      ∃ run rest, s = run ++ rest ∧ run ≠ [] ∧ (∀ c ∈ run, c = '\n') ∧
        (∀ c t, rest = c :: t → c ≠ '\n') ∧ rep = ['\n'] ∧ n = run.length) ∧
    (∀ s : List Char, ∃ pre post, s = pre ++ stripBoth s ++ post ∧
      (∀ c ∈ pre, pyWs c = true) ∧ (∀ c ∈ post, pyWs c = true) ∧
      (∀ c t, stripBoth s = c :: t → pyWs c = false) ∧
      (∀ c t, (stripBoth s).reverse = c :: t → pyWs c = false)) :=
  ⟨clean_text_refines_spec, rfl, colorOpenM_iff,
   (fun s r n => litM_iff colorClosePat [] (by decide) s r n),
   codeM_iff, imageM_iff, linkM_iff, newlineM_iff, stripBoth_spec⟩

theorem clean_text_pipeline_witness :
    _clean_text "see [docs|x] now!y! a\n\n b" =
      clean_text_spec "see [docs|x] now!y! a\n\n b" ∧
    litM colorClosePat [] (colorClosePat ++ ['z']) = some ([], colorClosePat.length) :=
  ⟨clean_text_pipeline.1 _,
   (clean_text_pipeline.2.2.2.1 (colorClosePat ++ ['z']) [] colorClosePat.length).mpr
     ⟨['z'], rfl, rfl, rfl⟩⟩
